import Mathlib

/-!
# Verification of the Polymarket live-dashboard core

Shallow embedding, in Lean 4, of the core logic of the dashboard:
the portfolio ledger (`src/portfolio/portfolio.ts`), the execution-price
book walk (`src/simulator/simulator.ts`), the PollBuy strategy
(`src/strategy/poll-buy-strategy.ts`), and the websocket client's
order-book reconstruction (`src/websocket/client.ts`).

Modelling conventions:
* JS numbers are modelled as exact rationals (`ℚ`).  Where parse faults
  matter (`parseFloat` on a malformed numeral yields `NaN`), a JS number
  is modelled as `Option ℚ` with `none` standing for `NaN`.
* A JS `Map` is modelled as an association list in insertion order:
  `get` finds the first binding, `set` overwrites in place or appends,
  `delete` removes the binding.
* JS reference semantics (object aliasing, needed for the snapshot
  claims) are modelled by an explicit heap of `Position` records indexed
  by natural-number references.
-/

namespace Dashboard

/-- Trade side, as the `"BUY" | "SELL"` union type. -/
inductive Side where
  | buy
  | sell
deriving DecidableEq, Repr

/-- `Position` from `src/portfolio/types.ts`. -/
structure Position where
  tokenId : String
  outcome : String
  posSide : String
  shares : ℚ
  averagePrice : ℚ
  totalCost : ℚ
  firstPurchaseTime : ℤ
  lastPurchaseTime : ℤ
deriving DecidableEq, Repr

/-! ## JS `Map` as an association list -/

/-- `Map.get`: first binding for the key, if any. -/
def mapGet {α : Type} (m : List (String × α)) (k : String) : Option α :=
  match m.find? (fun kv => kv.1 == k) with
  | some kv => some kv.2
  | none => none

/-- `Map.set`: overwrite the first binding in place, else append (JS
insertion order). -/
def mapSet {α : Type} (m : List (String × α)) (k : String) (v : α) :
    List (String × α) :=
  match m with
  | [] => [(k, v)]
  | kv :: rest =>
    if kv.1 == k then (k, v) :: rest else kv :: mapSet rest k v

/-- `Map.delete`: remove the first binding for the key. -/
def mapDelete {α : Type} (m : List (String × α)) (k : String) :
    List (String × α) :=
  match m with
  | [] => []
  | kv :: rest =>
    if kv.1 == k then rest else kv :: mapDelete rest k

/-! ## PortfolioTracker (`src/portfolio/portfolio.ts`)

The tracker state bundles the `portfolio` record and the
`currentPrices` map of the class. -/

structure Tracker where
  positions : List (String × Position)
  totalCost : ℚ
  currentValue : ℚ
  unrealizedPnL : ℚ
  realizedPnL : ℚ
  currentPrices : List (String × ℚ)
deriving DecidableEq, Repr

/-- The constructor's initial state: empty portfolio, no prices. -/
def Tracker.init : Tracker :=
  { positions := []
    totalCost := 0
    currentValue := 0
    unrealizedPnL := 0
    realizedPnL := 0
    currentPrices := [] }

/-- `this.currentPrices.get(tokenId) || 0` — a missing price marks at 0
(and a stored 0 is falsy, also giving 0). -/
def priceOf (prices : List (String × ℚ)) (tokenId : String) : ℚ :=
  match mapGet prices tokenId with
  | some p => if p = 0 then 0 else p
  | none => 0

/-- The loop body sum of `recalculateValue`:
`currentValue = Σ currentPrice * position.shares` over live positions. -/
def sumValue (prices : List (String × ℚ)) (ps : List (String × Position)) : ℚ :=
  (ps.map (fun kv => priceOf prices kv.1 * kv.2.shares)).sum

/-- Sum of `totalCost` over live positions. -/
def sumTotalCost (ps : List (String × Position)) : ℚ :=
  (ps.map (fun kv => kv.2.totalCost)).sum

/-- `PortfolioTracker.recalculateValue`. -/
def recalculateValue (t : Tracker) : Tracker :=
  { t with
    currentValue := sumValue t.currentPrices t.positions
    unrealizedPnL := sumValue t.currentPrices t.positions - t.totalCost }

/-- `PortfolioTracker.setPrice`. -/
def setPrice (t : Tracker) (tokenId : String) (price : ℚ) : Tracker :=
  recalculateValue { t with currentPrices := mapSet t.currentPrices tokenId price }

/-- A price level with exact rational fields (well-formed JS numbers);
used by the portfolio and the simulator. -/
structure QLevel where
  price : ℚ
  size : ℚ
deriving DecidableEq, Repr

/-- An order book whose levels are well-formed numbers. -/
structure QBook where
  bids : List QLevel
  asks : List QLevel
deriving DecidableEq, Repr

/-- JS `x || d` on a possibly-missing number: `undefined` and the falsy
`0` both yield the default. -/
def optOr (x : Option ℚ) (d : ℚ) : ℚ :=
  match x with
  | none => d
  | some v => if v = 0 then d else v

/-- `PortfolioTracker.updatePrices`: midpoint if both sides are
populated, else best ask, else best bid, else the 0.5 default. -/
def updatePrices (t : Tracker) (tokenId : String) (ob : QBook) : Tracker :=
  let price : ℚ :=
    if ob.bids ≠ [] ∧ ob.asks ≠ [] then
      (optOr (ob.bids.head?.map QLevel.price) 0
        + optOr (ob.asks.head?.map QLevel.price) 1) / 2
    else if ob.asks ≠ [] then (ob.asks.head?.map QLevel.price).getD 0
    else if ob.bids ≠ [] then (ob.bids.head?.map QLevel.price).getD 0
    else (1 : ℚ) / 2
  recalculateValue { t with currentPrices := mapSet t.currentPrices tokenId price }

/-- `PortfolioTracker.addTrade`. -/
def addTrade (t : Tracker) (tokenId outcome : String) (side : Side)
    (price size : ℚ) (timestamp : ℤ) : Tracker :=
  let t' :=
    match side with
    | Side.buy =>
      match mapGet t.positions tokenId with
      | some existing =>
        let totalCost := existing.totalCost + price * size
        let totalShares := existing.shares + size
        let updated :=
          { existing with
            averagePrice := totalCost / totalShares
            shares := totalShares
            totalCost := totalCost
            lastPurchaseTime := timestamp }
        { t with
          positions := mapSet t.positions tokenId updated
          totalCost := t.totalCost + price * size }
      | none =>
        let position : Position :=
          { tokenId := tokenId
            outcome := outcome
            posSide := outcome.toUpper
            shares := size
            averagePrice := price
            totalCost := price * size
            firstPurchaseTime := timestamp
            lastPurchaseTime := timestamp }
        { t with
          positions := mapSet t.positions tokenId position
          totalCost := t.totalCost + price * size }
    | Side.sell =>
      match mapGet t.positions tokenId with
      | some existing =>
        if existing.shares ≥ size then
          let costBasis := existing.averagePrice * size
          let realized := price * size - costBasis
          let updated :=
            { existing with
              shares := existing.shares - size
              totalCost := existing.totalCost - costBasis }
          let positions' :=
            if updated.shares = 0 then mapDelete t.positions tokenId
            else mapSet t.positions tokenId updated
          { t with
            positions := positions'
            totalCost := t.totalCost - costBasis
            realizedPnL := t.realizedPnL + realized }
        else t
      | none => t
  recalculateValue t'

/-- One external mutation of the tracker: a fill posted by the
simulator, or a mark-price update. -/
inductive LedgerEvent where
  | fill (tokenId outcome : String) (side : Side) (price size : ℚ) (timestamp : ℤ)
  | mark (tokenId : String) (price : ℚ)
  | markBook (tokenId : String) (ob : QBook)
deriving Repr

/-- Apply one event to the tracker. -/
def applyEvent (t : Tracker) : LedgerEvent → Tracker
  | LedgerEvent.fill tokenId outcome side price size ts =>
    addTrade t tokenId outcome side price size ts
  | LedgerEvent.mark tokenId price => setPrice t tokenId price
  | LedgerEvent.markBook tokenId ob => updatePrices t tokenId ob

/-- Run a sequence of events from the initial empty tracker. -/
def runLedger (evs : List LedgerEvent) : Tracker :=
  evs.foldl applyEvent Tracker.init

/-- An event's fill size, positive for genuine fills (`True` for
mark-price events). -/
def fillSizePos : LedgerEvent → Prop
  | LedgerEvent.fill _ _ _ _ size _ => 0 < size
  | LedgerEvent.mark _ _ => True
  | LedgerEvent.markBook _ _ => True

/-! ## Ledger invariant lemmas -/

lemma mapGet_nil {α : Type} (k : String) : mapGet ([] : List (String × α)) k = none := by
  simp [mapGet]

lemma mapGet_cons {α : Type} (kv : String × α) (rest : List (String × α)) (k : String) :
    mapGet (kv :: rest) k = if kv.1 = k then some kv.2 else mapGet rest k := by
  by_cases h : kv.1 = k
  · simp [mapGet, List.find?, h]
  · have hb : (kv.1 == k) = false := by simpa using h
    simp [mapGet, List.find?, hb, h]

lemma mapSet_cons {α : Type} (kv : String × α) (rest : List (String × α))
    (k : String) (v : α) :
    mapSet (kv :: rest) k v =
      if kv.1 = k then (k, v) :: rest else kv :: mapSet rest k v := by
  by_cases h : kv.1 = k <;> simp [mapSet, h]

lemma mapDelete_cons {α : Type} (kv : String × α) (rest : List (String × α)) (k : String) :
    mapDelete (kv :: rest) k =
      if kv.1 = k then rest else kv :: mapDelete rest k := by
  by_cases h : kv.1 = k <;> simp [mapDelete, h]

lemma mapGet_mem {α : Type} {m : List (String × α)} {k : String} {v : α}
    (h : mapGet m k = some v) : (k, v) ∈ m := by
  induction m with
  | nil => simp [mapGet_nil] at h
  | cons kv rest ih =>
    obtain ⟨a, b⟩ := kv
    rw [mapGet_cons] at h
    by_cases hk : a = k
    · subst hk
      simp at h
      subst h
      exact List.mem_cons_self _ _
    · simp [hk] at h
      exact List.mem_cons_of_mem _ (ih h)

lemma mem_mapSet {α : Type} {m : List (String × α)} {k : String} {v : α} {kv : String × α}
    (h : kv ∈ mapSet m k v) : kv ∈ m ∨ kv = (k, v) := by
  induction m with
  | nil => simp [mapSet] at h; simp [h]
  | cons hd rest ih =>
    rw [mapSet_cons] at h
    by_cases hk : hd.1 = k
    · simp [hk] at h
      rcases h with h | h
      · right; simp [h]
      · left; exact List.mem_cons_of_mem _ h
    · simp [hk] at h
      rcases h with h | h
      · left; simp [h]
      · rcases ih h with h' | h'
        · left; exact List.mem_cons_of_mem _ h'
        · right; exact h'

lemma mem_mapDelete {α : Type} {m : List (String × α)} {k : String} {kv : String × α}
    (h : kv ∈ mapDelete m k) : kv ∈ m := by
  induction m with
  | nil => simp [mapDelete] at h
  | cons hd rest ih =>
    rw [mapDelete_cons] at h
    by_cases hk : hd.1 = k
    · simp [hk] at h
      exact List.mem_cons_of_mem _ h
    · simp [hk] at h
      rcases h with h | h
      · simp [h]
      · exact List.mem_cons_of_mem _ (ih h)

lemma map_sum_mapSet_some {α : Type} (f : String × α → ℚ) {m : List (String × α)}
    {k : String} {old : α} (v : α) (h : mapGet m k = some old) :
    ((mapSet m k v).map f).sum = (m.map f).sum - f (k, old) + f (k, v) := by
  induction m with
  | nil => simp [mapGet_nil] at h
  | cons kv rest ih =>
    obtain ⟨a, b⟩ := kv
    rw [mapGet_cons] at h
    rw [mapSet_cons]
    by_cases hk : a = k
    · subst hk
      simp at h ⊢
      subst h
      ring
    · simp [hk] at h ⊢
      rw [ih h]
      ring

lemma map_sum_mapSet_none {α : Type} (f : String × α → ℚ) {m : List (String × α)}
    {k : String} (v : α) (h : mapGet m k = none) :
    ((mapSet m k v).map f).sum = (m.map f).sum + f (k, v) := by
  induction m with
  | nil => simp [mapSet]
  | cons kv rest ih =>
    obtain ⟨a, b⟩ := kv
    rw [mapGet_cons] at h
    rw [mapSet_cons]
    by_cases hk : a = k
    · simp [hk] at h
    · simp [hk] at h ⊢
      rw [ih h]
      ring

lemma map_sum_mapDelete_some {α : Type} (f : String × α → ℚ) {m : List (String × α)}
    {k : String} {old : α} (h : mapGet m k = some old) :
    ((mapDelete m k).map f).sum = (m.map f).sum - f (k, old) := by
  induction m with
  | nil => simp [mapGet_nil] at h
  | cons kv rest ih =>
    obtain ⟨a, b⟩ := kv
    rw [mapGet_cons] at h
    rw [mapDelete_cons]
    by_cases hk : a = k
    · subst hk
      simp at h ⊢
      subst h
      ring
    · simp [hk] at h ⊢
      rw [ih h]
      ring

/-- The ledger invariant of the claims: the aggregate `totalCost` is the
sum over live positions, `currentValue` marks every position at the
stored price (0 when absent), `unrealizedPnL` is the difference, and
every live position has a consistent cost basis and positive shares. -/
def TrackerInv (t : Tracker) : Prop :=
  t.totalCost = sumTotalCost t.positions ∧
  t.currentValue = sumValue t.currentPrices t.positions ∧
  t.unrealizedPnL = t.currentValue - t.totalCost ∧
  ∀ kv ∈ t.positions, kv.2.totalCost = kv.2.averagePrice * kv.2.shares ∧ 0 < kv.2.shares

lemma trackerInv_recalc (t : Tracker)
    (h1 : t.totalCost = sumTotalCost t.positions)
    (h2 : ∀ kv ∈ t.positions, kv.2.totalCost = kv.2.averagePrice * kv.2.shares ∧ 0 < kv.2.shares) :
    TrackerInv (recalculateValue t) := by
  refine ⟨h1, rfl, ?_, h2⟩
  simp [recalculateValue, h1]

lemma trackerInv_init : TrackerInv Tracker.init := by
  refine ⟨rfl, rfl, by simp [Tracker.init, sumValue], ?_⟩
  simp [Tracker.init]

lemma mapGet_mapSet {α : Type} (m : List (String × α)) (k : String) (v : α) :
    mapGet (mapSet m k v) k = some v := by
  induction m with
  | nil => simp [mapSet, mapGet_cons]
  | cons kv rest ih =>
    obtain ⟨a, b⟩ := kv
    rw [mapSet_cons]
    by_cases hk : a = k
    · simp [hk, mapGet_cons]
    · simp [hk, mapGet_cons, ih]

lemma mapGet_eq_none_of_not_mem_keys {α : Type} {m : List (String × α)} {k : String}
    (h : k ∉ m.map Prod.fst) : mapGet m k = none := by
  induction m with
  | nil => simp [mapGet_nil]
  | cons kv rest ih =>
    obtain ⟨a, b⟩ := kv
    simp only [List.map_cons, List.mem_cons] at h
    push_neg at h
    rw [mapGet_cons, if_neg (fun hh => h.1 hh.symm)]
    exact ih h.2

lemma mapGet_mapDelete {α : Type} {m : List (String × α)} {k : String}
    (hnd : (m.map Prod.fst).Nodup) : mapGet (mapDelete m k) k = none := by
  induction m with
  | nil => simp [mapDelete, mapGet_nil]
  | cons kv rest ih =>
    obtain ⟨a, b⟩ := kv
    simp at hnd
    rw [mapDelete_cons]
    by_cases hk : a = k
    · subst hk
      simpa using mapGet_eq_none_of_not_mem_keys (by simpa using hnd.1)
    · simp [hk, mapGet_cons, ih hnd.2]

/-- The position record after folding a BUY into an existing position. -/
def foldBuy (existing : Position) (price size : ℚ) (ts : ℤ) : Position :=
  { existing with
    averagePrice := (existing.totalCost + price * size) / (existing.shares + size)
    shares := existing.shares + size
    totalCost := existing.totalCost + price * size
    lastPurchaseTime := ts }

/-- The position record after a successful partial SELL. -/
def foldSell (existing : Position) (size : ℚ) : Position :=
  { existing with
    shares := existing.shares - size
    totalCost := existing.totalCost - existing.averagePrice * size }

lemma addTrade_buy_some {t : Tracker} {tokenId : String} {existing : Position}
    (outcome : String) (price size : ℚ) (ts : ℤ)
    (hget : mapGet t.positions tokenId = some existing) :
    addTrade t tokenId outcome Side.buy price size ts =
      recalculateValue
        { t with
          positions := mapSet t.positions tokenId (foldBuy existing price size ts)
          totalCost := t.totalCost + price * size } := by
  unfold addTrade foldBuy
  rw [hget]

lemma addTrade_buy_none {t : Tracker} {tokenId : String}
    (outcome : String) (price size : ℚ) (ts : ℤ)
    (hget : mapGet t.positions tokenId = none) :
    addTrade t tokenId outcome Side.buy price size ts =
      recalculateValue
        { t with
          positions := mapSet t.positions tokenId
            { tokenId := tokenId
              outcome := outcome
              posSide := outcome.toUpper
              shares := size
              averagePrice := price
              totalCost := price * size
              firstPurchaseTime := ts
              lastPurchaseTime := ts }
          totalCost := t.totalCost + price * size } := by
  unfold addTrade
  rw [hget]

lemma addTrade_sell_some {t : Tracker} {tokenId : String} {existing : Position}
    (outcome : String) (price size : ℚ) (ts : ℤ)
    (hget : mapGet t.positions tokenId = some existing) :
    addTrade t tokenId outcome Side.sell price size ts =
      if existing.shares ≥ size then
        recalculateValue
          { t with
            positions :=
              if existing.shares - size = 0 then mapDelete t.positions tokenId
              else mapSet t.positions tokenId (foldSell existing size)
            totalCost := t.totalCost - existing.averagePrice * size
            realizedPnL :=
              t.realizedPnL + (price * size - existing.averagePrice * size) }
      else recalculateValue t := by
  unfold addTrade foldSell
  rw [hget]
  exact apply_ite recalculateValue _ _ _

lemma addTrade_sell_none {t : Tracker} {tokenId : String}
    (outcome : String) (price size : ℚ) (ts : ℤ)
    (hget : mapGet t.positions tokenId = none) :
    addTrade t tokenId outcome Side.sell price size ts = recalculateValue t := by
  unfold addTrade
  rw [hget]

lemma addTrade_trackerInv (t : Tracker) (tokenId outcome : String) (side : Side)
    (price size : ℚ) (ts : ℤ) (hInv : TrackerInv t) (hsize : 0 < size) :
    TrackerInv (addTrade t tokenId outcome side price size ts) := by
  obtain ⟨h1, _, _, hpos⟩ := hInv
  cases side with
  | buy =>
    cases hget : mapGet t.positions tokenId with
    | some existing =>
      have hx := hpos _ (mapGet_mem hget)
      have hx2 : 0 < existing.shares := hx.2
      have hsh : existing.shares + size ≠ 0 := ne_of_gt (add_pos hx2 hsize)
      rw [addTrade_buy_some outcome price size ts hget]
      apply trackerInv_recalc
      · show t.totalCost + price * size = sumTotalCost (mapSet t.positions tokenId _)
        unfold sumTotalCost at h1 ⊢
        rw [map_sum_mapSet_some (fun kv => kv.2.totalCost) _ hget, ← h1]
        simp [foldBuy]
        ring
      · intro kv hkv
        rcases mem_mapSet hkv with h | h
        · exact hpos kv h
        · subst h
          constructor
          · show (foldBuy existing price size ts).totalCost =
              (foldBuy existing price size ts).averagePrice *
                (foldBuy existing price size ts).shares
            simp only [foldBuy]
            rw [div_mul_cancel₀ _ hsh]
          · show 0 < (foldBuy existing price size ts).shares
            simpa [foldBuy] using add_pos hx2 hsize
    | none =>
      rw [addTrade_buy_none outcome price size ts hget]
      apply trackerInv_recalc
      · show t.totalCost + price * size = sumTotalCost (mapSet t.positions tokenId _)
        unfold sumTotalCost at h1 ⊢
        rw [map_sum_mapSet_none (fun kv => kv.2.totalCost) _ hget, ← h1]
      · intro kv hkv
        rcases mem_mapSet hkv with h | h
        · exact hpos kv h
        · subst h
          exact ⟨by ring, hsize⟩
  | sell =>
    cases hget : mapGet t.positions tokenId with
    | some existing =>
      have hx := hpos _ (mapGet_mem hget)
      have hx1 : existing.totalCost = existing.averagePrice * existing.shares := hx.1
      rw [addTrade_sell_some outcome price size ts hget]
      by_cases hsh : existing.shares ≥ size
      · rw [if_pos hsh]
        by_cases hzero : existing.shares - size = 0
        · rw [if_pos hzero]
          apply trackerInv_recalc
          · show t.totalCost - existing.averagePrice * size =
              sumTotalCost (mapDelete t.positions tokenId)
            unfold sumTotalCost at h1 ⊢
            rw [map_sum_mapDelete_some (fun kv => kv.2.totalCost) hget, ← h1]
            have heq : existing.shares = size := by linarith
            rw [hx1, heq]
          · intro kv hkv
            exact hpos kv (mem_mapDelete hkv)
        · rw [if_neg hzero]
          apply trackerInv_recalc
          · show t.totalCost - existing.averagePrice * size =
              sumTotalCost (mapSet t.positions tokenId _)
            unfold sumTotalCost at h1 ⊢
            rw [map_sum_mapSet_some (fun kv => kv.2.totalCost) _ hget, ← h1]
            simp [foldSell]
          · intro kv hkv
            rcases mem_mapSet hkv with h | h
            · exact hpos kv h
            · subst h
              constructor
              · show (foldSell existing size).totalCost =
                  (foldSell existing size).averagePrice * (foldSell existing size).shares
                simp [foldSell]
                rw [hx1]
                ring
              · show 0 < existing.shares - size
                rcases lt_or_eq_of_le (by linarith : (0:ℚ) ≤ existing.shares - size)
                  with h' | h'
                · exact h'
                · exact absurd h'.symm hzero
      · rw [if_neg hsh]
        exact trackerInv_recalc t h1 hpos
    | none =>
      rw [addTrade_sell_none outcome price size ts hget]
      exact trackerInv_recalc t h1 hpos

lemma applyEvent_trackerInv (t : Tracker) (e : LedgerEvent)
    (hInv : TrackerInv t) (he : fillSizePos e) : TrackerInv (applyEvent t e) := by
  obtain ⟨h1, h2, h3, hpos⟩ := hInv
  cases e with
  | fill tokenId outcome side price size ts =>
    exact addTrade_trackerInv t tokenId outcome side price size ts ⟨h1, h2, h3, hpos⟩ he
  | mark tokenId price => exact trackerInv_recalc _ h1 hpos
  | markBook tokenId ob => exact trackerInv_recalc _ h1 hpos

lemma foldl_trackerInv : ∀ (evs : List LedgerEvent) (t : Tracker),
    (∀ e ∈ evs, fillSizePos e) → TrackerInv t →
    TrackerInv (evs.foldl applyEvent t) := by
  intro evs
  induction evs with
  | nil => intro t _ ht; exact ht
  | cons e rest ih =>
    intro t h ht
    exact ih (applyEvent t e) (fun e' he' => h e' (List.mem_cons_of_mem _ he'))
      (applyEvent_trackerInv t e ht (h e (List.mem_cons_self _ _)))

lemma runLedger_trackerInv (evs : List LedgerEvent)
    (h : ∀ e ∈ evs, fillSizePos e) : TrackerInv (runLedger evs) :=
  foldl_trackerInv evs Tracker.init h trackerInv_init

/-- **C1**: after any sequence of fills (positive size) and mark-price
updates applied to the initially empty ledger, the aggregate `totalCost`
equals the sum of the live positions' `totalCost`, `unrealizedPnL`
equals `currentValue - totalCost`, and `currentValue` is the sum over
live positions of the stored mark price (0 when absent) times shares. -/
theorem ledger_totals_invariant (evs : List LedgerEvent)
    (h : ∀ e ∈ evs, fillSizePos e) :
    (runLedger evs).totalCost = sumTotalCost (runLedger evs).positions ∧
    (runLedger evs).unrealizedPnL =
      (runLedger evs).currentValue - (runLedger evs).totalCost ∧
    (runLedger evs).currentValue =
      sumValue (runLedger evs).currentPrices (runLedger evs).positions := by
  obtain ⟨h1, h2, h3, _⟩ := runLedger_trackerInv evs h
  exact ⟨h1, h3, h2⟩

/-- Concrete event sequence used to witness the C1 invariant. -/
def wEvents : List LedgerEvent :=
  [LedgerEvent.fill "tok" "yes" Side.buy (3/10) 2 0,
   LedgerEvent.mark "tok" (2/5),
   LedgerEvent.fill "tok" "yes" Side.sell (1/2) 1 5]

/-- Witness for C1 at a concrete event sequence. -/
theorem ledger_totals_invariant_witness :
    (∀ e ∈ wEvents, fillSizePos e) ∧
    ((runLedger wEvents).totalCost = sumTotalCost (runLedger wEvents).positions ∧
     (runLedger wEvents).unrealizedPnL =
       (runLedger wEvents).currentValue - (runLedger wEvents).totalCost ∧
     (runLedger wEvents).currentValue =
       sumValue (runLedger wEvents).currentPrices (runLedger wEvents).positions) := by
  have hp : ∀ e ∈ wEvents, fillSizePos e := by
    intro e he
    simp only [wEvents, List.mem_cons, List.not_mem_nil, or_false] at he
    rcases he with rfl | rfl | rfl <;> simp [fillSizePos]
  exact ⟨hp, ledger_totals_invariant wEvents hp⟩

/-- **C3**: per-fill semantics of `addTrade`: a BUY folds into an
existing position with weighted-average cost, otherwise creates a fresh
position at `averagePrice = price`; a SELL executes only when held
shares are at least the sell size (otherwise the state is unchanged),
books `(price - averagePrice) * size` of realized P&L, reduces shares
and cost basis proportionally, and deletes the position at exactly zero
shares. -/
theorem addTrade_fill_semantics (t : Tracker) (tokenId outcome : String)
    (price size : ℚ) (ts : ℤ) :
    (∀ existing, mapGet t.positions tokenId = some existing →
      mapGet (addTrade t tokenId outcome Side.buy price size ts).positions tokenId =
        some (foldBuy existing price size ts) ∧
      (addTrade t tokenId outcome Side.buy price size ts).realizedPnL =
        t.realizedPnL) ∧
    (mapGet t.positions tokenId = none →
      mapGet (addTrade t tokenId outcome Side.buy price size ts).positions tokenId =
        some { tokenId := tokenId
               outcome := outcome
               posSide := outcome.toUpper
               shares := size
               averagePrice := price
               totalCost := price * size
               firstPurchaseTime := ts
               lastPurchaseTime := ts }) ∧
    (recalculateValue t = t →
      ∀ existing, mapGet t.positions tokenId = some existing →
        existing.shares < size →
        addTrade t tokenId outcome Side.sell price size ts = t) ∧
    (recalculateValue t = t → mapGet t.positions tokenId = none →
      addTrade t tokenId outcome Side.sell price size ts = t) ∧
    (∀ existing, mapGet t.positions tokenId = some existing →
      size ≤ existing.shares →
      (addTrade t tokenId outcome Side.sell price size ts).realizedPnL =
        t.realizedPnL + (price - existing.averagePrice) * size ∧
      (existing.shares - size = 0 → (t.positions.map Prod.fst).Nodup →
        mapGet (addTrade t tokenId outcome Side.sell price size ts).positions tokenId =
          none) ∧
      (existing.shares - size ≠ 0 →
        mapGet (addTrade t tokenId outcome Side.sell price size ts).positions tokenId =
          some (foldSell existing size))) := by
  refine ⟨?_, ?_, ?_, ?_, ?_⟩
  · intro existing hget
    rw [addTrade_buy_some outcome price size ts hget]
    exact ⟨mapGet_mapSet _ _ _, rfl⟩
  · intro hget
    rw [addTrade_buy_none outcome price size ts hget]
    exact mapGet_mapSet _ _ _
  · intro hre existing hget hlt
    rw [addTrade_sell_some outcome price size ts hget, if_neg (not_le.mpr hlt)]
    exact hre
  · intro hre hget
    rw [addTrade_sell_none outcome price size ts hget]
    exact hre
  · intro existing hget hle
    rw [addTrade_sell_some outcome price size ts hget, if_pos hle]
    refine ⟨by show t.realizedPnL + _ = _; ring, ?_, ?_⟩
    · intro hzero hnd
      show mapGet (if existing.shares - size = 0 then _ else _) tokenId = none
      rw [if_pos hzero]
      exact mapGet_mapDelete hnd
    · intro hzero
      show mapGet (if existing.shares - size = 0 then _ else _) tokenId = _
      rw [if_neg hzero]
      exact mapGet_mapSet _ _ _

/-! ## StrategySimulator execution pricing (`src/simulator/simulator.ts`) -/

/-- `StrategyContext` from `src/strategy/types.ts` (the fields the
simulator reads). -/
structure Ctx where
  tokenId : String
  marketName : String
  outcome : String
  currentPrice : ℚ
  bestBid : ℚ
  bestAsk : ℚ
  timestamp : ℤ
deriving DecidableEq, Repr

/-- JS `x || d` on a plain number: `0` is falsy. -/
def jsOrQ (x d : ℚ) : ℚ := if x = 0 then d else x

/-- Insert a level into an ascending-by-price list, stably (the JS sort
comparator `a.price - b.price`). -/
def insertAsc (x : QLevel) : List QLevel → List QLevel
  | [] => [x]
  | y :: ys => if x.price < y.price then x :: y :: ys else y :: insertAsc x ys

/-- Stable ascending sort by price (`[...levels].sort((a,b) => a.price - b.price)`). -/
def sortLevelsAsc : List QLevel → List QLevel
  | [] => []
  | x :: xs => insertAsc x (sortLevelsAsc xs)

/-- Insert a level into a descending-by-price list, stably (the JS sort
comparator `b.price - a.price`). -/
def insertDesc (x : QLevel) : List QLevel → List QLevel
  | [] => [x]
  | y :: ys => if y.price < x.price then x :: y :: ys else y :: insertDesc x ys

/-- Stable descending sort by price (`[...levels].sort((a,b) => b.price - a.price)`). -/
def sortLevelsDesc : List QLevel → List QLevel
  | [] => []
  | x :: xs => insertDesc x (sortLevelsDesc xs)

/-- The level-consuming loop of `calculateExecutionPrice`: walk the
given levels accumulating `fillSize * levelPrice` until the requested
size is consumed; returns `(totalCost, remainingSize)`. -/
def walkLoop : List QLevel → ℚ → ℚ → ℚ × ℚ
  | [], remaining, total => (total, remaining)
  | l :: rest, remaining, total =>
    if remaining ≤ 0 then (total, remaining)
    else walkLoop rest (remaining - min remaining l.size)
      (total + min remaining l.size * l.price)

/-- `StrategySimulator.calculateExecutionPrice`: walk the held book (or
fall back to context prices), returning `(averagePrice, canFill)`. -/
def calculateExecutionPrice (currentOrderBook : Option QBook)
    (currentContext : Option Ctx) (side : Side) (size : ℚ) : ℚ × Bool :=
  match currentOrderBook with
  | none =>
    match currentContext with
    | some ctx =>
      let price :=
        match side with
        | Side.buy => jsOrQ ctx.bestAsk ctx.currentPrice
        | Side.sell => jsOrQ ctx.bestBid ctx.currentPrice
      (price, true)
    | none => (1/2, false)
  | some ob =>
    let levels := match side with | Side.buy => ob.asks | Side.sell => ob.bids
    let sorted :=
      match side with
      | Side.buy => sortLevelsAsc ob.asks
      | Side.sell => sortLevelsDesc ob.bids
    let walked := walkLoop sorted size 0
    let totalCost :=
      if 0 < walked.2 then
        let bestPrice :=
          match side with
          | Side.buy => optOr (ob.asks.head?.map QLevel.price) 1
          | Side.sell => optOr (ob.bids.head?.map QLevel.price) 0
        walked.1 + walked.2 * bestPrice
      else walked.1
    let averagePrice := if 0 < size then totalCost / size else 0
    (averagePrice, decide (walked.2 = 0) || !(levels.isEmpty))

/-- The claim's own description of the book walk, for the refinement
part of C2: consume levels from best to worst up to the requested size,
price any remainder beyond visible depth at the best available level,
and return `totalCost / size` (0 when the size is 0). -/
def specAveragePrice (side : Side) (levels : List QLevel) (size : ℚ) : ℚ :=
  let sorted :=
    match side with
    | Side.buy => sortLevelsAsc levels
    | Side.sell => sortLevelsDesc levels
  let walked := walkLoop sorted size 0
  let best :=
    match sorted.head? with
    | some l => l.price
    | none => 0
  let totalCost := if 0 < walked.2 then walked.1 + walked.2 * best else walked.1
  if size = 0 then 0 else totalCost / size

lemma insertAsc_of_lt (x : QLevel) (xs : List QLevel)
    (h : ∀ y ∈ xs.head?, x.price < y.price) : insertAsc x xs = x :: xs := by
  cases xs with
  | nil => rfl
  | cons y ys =>
    have : x.price < y.price := h y rfl
    simp [insertAsc, this]

lemma sortLevelsAsc_of_sorted {xs : List QLevel}
    (h : xs.Pairwise (fun a b => a.price < b.price)) : sortLevelsAsc xs = xs := by
  induction xs with
  | nil => rfl
  | cons x rest ih =>
    rw [List.pairwise_cons] at h
    rw [sortLevelsAsc, ih h.2, insertAsc_of_lt]
    intro y hy
    cases rest with
    | nil => simp at hy
    | cons z zs =>
      simp at hy
      subst hy
      exact h.1 z (List.mem_cons_self _ _)

lemma insertDesc_of_lt (x : QLevel) (xs : List QLevel)
    (h : ∀ y ∈ xs.head?, y.price < x.price) : insertDesc x xs = x :: xs := by
  cases xs with
  | nil => rfl
  | cons y ys =>
    have : y.price < x.price := h y rfl
    simp [insertDesc, this]

lemma sortLevelsDesc_of_sorted {xs : List QLevel}
    (h : xs.Pairwise (fun a b => b.price < a.price)) : sortLevelsDesc xs = xs := by
  induction xs with
  | nil => rfl
  | cons x rest ih =>
    rw [List.pairwise_cons] at h
    rw [sortLevelsDesc, ih h.2, insertDesc_of_lt]
    intro y hy
    cases rest with
    | nil => simp at hy
    | cons z zs =>
      simp at hy
      subst hy
      exact h.1 z (List.mem_cons_self _ _)

/-- **C2 counterexample**: with asks `[(0, 1)]` and a BUY of size 2 the
code prices the unfilled remainder at the falsy default 1 (from
`asks[0]?.price || 1`), not at the best available level 0: the computed
average is 1/2 while the claimed walk gives 0. -/
theorem executionPrice_zero_best_ask_cex :
    (calculateExecutionPrice (some ⟨[], [⟨0, 1⟩]⟩) none Side.buy 2).1 = 1/2 ∧
    specAveragePrice Side.buy [⟨0, 1⟩] 2 = 0 := by
  constructor
  · norm_num [calculateExecutionPrice, walkLoop, sortLevelsAsc, insertAsc, optOr]
  · norm_num [specAveragePrice, walkLoop, sortLevelsAsc, insertAsc]

/-- **C2 (amended)**: the computed execution price walks the held book
exactly as the claim describes — ask levels in ascending order for a
BUY (bid levels in descending order for a SELL), remainder beyond
visible depth at the best available level, `averagePrice =
totalCost/size` with 0 at size 0 — for nonnegative sizes on a sorted
nonempty side, *provided* (for a BUY) the best ask price is nonzero:
a zero best ask is replaced by 1 by the `|| 1` falsy default.  The two
concrete book examples of the claim hold as stated. -/
theorem executionPrice_walks_book (ob : QBook) (ctx : Option Ctx) (size : ℚ) :
    (calculateExecutionPrice (some ⟨[], [⟨2/5, 2⟩, ⟨9/20, 3⟩]⟩) none Side.buy 4).1
      = 17/40 ∧
    (calculateExecutionPrice (some ⟨[], [⟨1/2, 1⟩]⟩) none Side.buy 3).1 = 1/2 ∧
    (∀ s : Side, (calculateExecutionPrice (some ob) ctx s 0).1 = 0) ∧
    (0 ≤ size → ob.asks.Pairwise (fun a b => a.price < b.price) → ob.asks ≠ [] →
      (∀ l ∈ ob.asks.head?, l.price ≠ 0) →
      (calculateExecutionPrice (some ob) ctx Side.buy size).1 =
        specAveragePrice Side.buy ob.asks size) ∧
    (0 ≤ size → ob.bids.Pairwise (fun a b => b.price < a.price) → ob.bids ≠ [] →
      (calculateExecutionPrice (some ob) ctx Side.sell size).1 =
        specAveragePrice Side.sell ob.bids size) := by
  refine ⟨?_, ?_, ?_, ?_, ?_⟩
  · norm_num [calculateExecutionPrice, walkLoop, sortLevelsAsc, insertAsc, optOr]
  · norm_num [calculateExecutionPrice, walkLoop, sortLevelsAsc, insertAsc, optOr]
  · intro s
    cases s <;> simp [calculateExecutionPrice]
  · intro hsz hsort hne hnz
    obtain ⟨bids, asks⟩ := ob
    cases asks with
    | nil => exact absurd rfl hne
    | cons l rest =>
      have hl : l.price ≠ 0 := hnz l rfl
      unfold calculateExecutionPrice specAveragePrice
      simp only
      rw [sortLevelsAsc_of_sorted hsort]
      simp only [List.head?_cons, Option.map_some', optOr]
      rw [if_neg hl]
      rcases eq_or_lt_of_le hsz with h0 | h0
      · rw [if_neg (by rw [← h0]; exact lt_irrefl 0), if_pos h0.symm]
      · rw [if_pos h0, if_neg (ne_of_gt h0)]
  · intro hsz hsort hne
    obtain ⟨bids, asks⟩ := ob
    cases bids with
    | nil => exact absurd rfl hne
    | cons l rest =>
      unfold calculateExecutionPrice specAveragePrice
      simp only
      rw [sortLevelsDesc_of_sorted hsort]
      simp only [List.head?_cons, Option.map_some', optOr]
      rcases eq_or_lt_of_le hsz with h0 | h0
      · rw [if_neg (by rw [← h0]; exact lt_irrefl 0), if_pos h0.symm]
      · rw [if_pos h0, if_neg (ne_of_gt h0)]
        by_cases hl : l.price = 0
        · rw [if_pos hl, hl]
        · rw [if_neg hl]

/-- Witness for C2 at a concrete sorted book and size. -/
theorem executionPrice_walks_book_witness :
    (0:ℚ) ≤ 4 ∧
    ([⟨2/5, 2⟩, ⟨9/20, 3⟩] : List QLevel).Pairwise (fun a b => a.price < b.price) ∧
    (calculateExecutionPrice (some ⟨[⟨3/5, 1⟩], [⟨2/5, 2⟩, ⟨9/20, 3⟩]⟩) none
        Side.buy 4).1 =
      specAveragePrice Side.buy [⟨2/5, 2⟩, ⟨9/20, 3⟩] 4 := by
  have hsz : (0:ℚ) ≤ 4 := by norm_num
  have hp : ([⟨2/5, 2⟩, ⟨9/20, 3⟩] : List QLevel).Pairwise
      (fun a b => a.price < b.price) := by
    simp [List.pairwise_cons]
    norm_num
  refine ⟨hsz, hp, ?_⟩
  exact (executionPrice_walks_book ⟨[⟨3/5, 1⟩], [⟨2/5, 2⟩, ⟨9/20, 3⟩]⟩ none 4).2.2.2.1
    hsz hp (by simp)
    (by intro l hl; simp at hl; subst hl; norm_num)

/-! ## PollBuyStrategy (`src/strategy/poll-buy-strategy.ts`)

Wall-clock times (`Date.now()`) are modelled as rationals, like every
other JS number. -/

/-- `PollBuyStrategyConfig` (name and enabled flag from
`StrategyConfig`, plus the optional strategy-specific fields). -/
structure PollBuyConfig where
  name : String
  enabled : Bool
  intervalSeconds : Option ℚ
  buySize : Option ℚ
  cfgTargetTokenId : Option String
  cfgTargetOutcome : Option String
deriving DecidableEq, Repr

/-- The mutable fields of a `PollBuyStrategy` instance. -/
structure PollBuyState where
  config : PollBuyConfig
  lastExecutionTime : ℚ
  executionCount : ℕ
  targetTokenId : Option String
deriving DecidableEq, Repr

/-- A trade intent returned by a strategy
(`{side, size, price?, tokenId?}`). -/
structure TradeIntent where
  side : Side
  size : ℚ
  price : Option ℚ
  tokenId : Option String
deriving DecidableEq, Repr

/-- `StrategyResult`. -/
structure StrategyResult where
  shouldExecute : Bool
  trade : Option TradeIntent
deriving DecidableEq, Repr

/-- JS `s || null` / `s || undefined` on an optional string: the empty
string is falsy. -/
def jsOrStrNone (x : Option String) : Option String :=
  match x with
  | none => none
  | some s => if s = "" then none else some s

/-- The `PollBuyStrategy` constructor. -/
def mkPollBuy (config : PollBuyConfig) : PollBuyState :=
  { config := config
    lastExecutionTime := 0
    executionCount := 0
    targetTokenId := jsOrStrNone config.cfgTargetTokenId }

/-- `PollBuyStrategy.initialize`: stamps `lastExecutionTime` with the
current time and defaults the target token to the context's. -/
def pollBuyInitialize (s : PollBuyState) (now : ℚ) (ctx : Ctx) : PollBuyState :=
  { s with
    lastExecutionTime := now
    executionCount := 0
    targetTokenId :=
      match s.targetTokenId with
      | none => some ctx.tokenId
      | some t => if t = "" then some ctx.tokenId else some t }

/-- `PollBuyStrategy.evaluate`: fire a BUY intent when at least
`intervalSeconds * 1000` ms have elapsed since `lastExecutionTime`. -/
def pollBuyEvaluate (s : PollBuyState) (now : ℚ) :
    StrategyResult × PollBuyState :=
  if ¬ s.config.enabled then ({ shouldExecute := false, trade := none }, s)
  else
    let intervalMs := optOr s.config.intervalSeconds 15 * 1000
    let timeSinceLastExecution := now - s.lastExecutionTime
    if timeSinceLastExecution ≥ intervalMs then
      ({ shouldExecute := true
         trade := some
           { side := Side.buy
             size := optOr s.config.buySize 1
             price := none
             tokenId := jsOrStrNone s.targetTokenId } },
       { s with lastExecutionTime := now, executionCount := s.executionCount + 1 })
    else ({ shouldExecute := false, trade := none }, s)

/-- The concrete PollBuy configuration of the dashboard
(`intervalSeconds: 15`, enabled). -/
def wPollCfg : PollBuyConfig :=
  { name := "PollBuy"
    enabled := true
    intervalSeconds := some 15
    buySize := some 1
    cfgTargetTokenId := none
    cfgTargetOutcome := none }

/-- A concrete context for the PollBuy runs. -/
def wCtx : Ctx :=
  { tokenId := "tok"
    marketName := "m"
    outcome := "yes"
    currentPrice := 1/2
    bestBid := 2/5
    bestAsk := 3/5
    timestamp := 0 }

/-- **C4 counterexample**: with `intervalSeconds = 15`, the first
evaluation after `initialize` does **not** produce a BUY intent:
`initialize` stamps `lastExecutionTime` with the initialization time, so
an evaluation 1000 ms later is below the interval and is a no-op. -/
theorem pollBuy_first_eval_cex :
    (pollBuyEvaluate (pollBuyInitialize (mkPollBuy wPollCfg) 0 wCtx) 1000).1.shouldExecute
      = false := by
  norm_num [pollBuyEvaluate, pollBuyInitialize, mkPollBuy, wPollCfg, wCtx,
    jsOrStrNone, optOr]

/-- **C4 (amended)**: with `intervalSeconds = 15` and the strategy
enabled, an evaluation produces a BUY intent iff at least 15000 ms have
elapsed since `lastExecutionTime` — which `initialize` sets to the
initialization time (so the first fire waits a full interval from
initialization, not from the first evaluation) and which each fire
resets to the fire time; an evaluation below the interval returns no
action and leaves the strategy state unchanged. -/
theorem pollBuy_fires_on_interval (s : PollBuyState) (now t0 : ℚ) (ctx : Ctx) :
    ((pollBuyInitialize s t0 ctx).lastExecutionTime = t0) ∧
    (s.config.enabled = true → s.config.intervalSeconds = some 15 →
      (((pollBuyEvaluate s now).1.shouldExecute = true ↔
          15000 ≤ now - s.lastExecutionTime) ∧
       (15000 ≤ now - s.lastExecutionTime →
         (pollBuyEvaluate s now).2.lastExecutionTime = now ∧
         ∃ intent, (pollBuyEvaluate s now).1.trade = some intent ∧
           intent.side = Side.buy) ∧
       (¬ 15000 ≤ now - s.lastExecutionTime →
         (pollBuyEvaluate s now).1.shouldExecute = false ∧
         (pollBuyEvaluate s now).1.trade = none ∧
         (pollBuyEvaluate s now).2 = s))) := by
  refine ⟨rfl, ?_⟩
  intro hen hint
  have hms : optOr s.config.intervalSeconds 15 * 1000 = 15000 := by
    rw [hint]; norm_num [optOr]
  by_cases hfire : 15000 ≤ now - s.lastExecutionTime
  · simp only [pollBuyEvaluate, hen, hms, ge_iff_le, if_pos hfire]
    refine ⟨⟨fun _ => hfire, fun _ => rfl⟩, fun _ => ⟨rfl, ⟨_, rfl, rfl⟩⟩,
      fun h => absurd hfire h⟩
  · simp only [pollBuyEvaluate, hen, hms, ge_iff_le, if_neg hfire]
    exact ⟨⟨fun h => by simp at h, fun h => absurd h hfire⟩,
      fun h => absurd h hfire, fun _ => ⟨rfl, rfl, rfl⟩⟩

/-- Witness for C4 at concrete states: a strategy initialized at time 0
fires at time 15000 and does not fire at 14999. -/
theorem pollBuy_fires_on_interval_witness :
    ((pollBuyInitialize (mkPollBuy wPollCfg) 0 wCtx).config.enabled = true) ∧
    ((pollBuyInitialize (mkPollBuy wPollCfg) 0 wCtx).config.intervalSeconds = some 15) ∧
    ((pollBuyEvaluate (pollBuyInitialize (mkPollBuy wPollCfg) 0 wCtx) 15000).1.shouldExecute
        = true ↔
      (15000 : ℚ) ≤
        15000 - (pollBuyInitialize (mkPollBuy wPollCfg) 0 wCtx).lastExecutionTime) := by
  have hen : (pollBuyInitialize (mkPollBuy wPollCfg) 0 wCtx).config.enabled = true := rfl
  have hint : (pollBuyInitialize (mkPollBuy wPollCfg) 0 wCtx).config.intervalSeconds
      = some 15 := rfl
  exact ⟨hen, hint,
    ((pollBuy_fires_on_interval (pollBuyInitialize (mkPollBuy wPollCfg) 0 wCtx)
        15000 0 wCtx).2 hen hint).1⟩

/-! ## Websocket client (`src/websocket/client.ts`)

Wire numerals arrive as strings and go through `parseFloat`; a malformed
numeral parses to `NaN`.  A parsed JS number is therefore modelled as
`Option ℚ`, `none` standing for `NaN`, and message fields below hold the
`parseFloat` images of the wire strings. -/

/-- A parsed book level (`OrderBookLevel`): `parseFloat` images of the
wire `price`/`size` strings (`none` = `NaN`). -/
structure Level where
  price : Option ℚ
  size : Option ℚ
deriving DecidableEq, Repr

/-- JS strict equality on parsed numbers: `NaN === x` is false. -/
def jsEq (a b : Option ℚ) : Bool :=
  match a, b with
  | some x, some y => x == y
  | _, _ => false

/-- JS `<` on parsed numbers: any comparison against `NaN` is false. -/
def jsLtOpt (a b : Option ℚ) : Bool :=
  match a, b with
  | some x, some y => decide (x < y)
  | _, _ => false

/-- JS multiplication: `NaN` propagates. -/
def jsMul (a b : Option ℚ) : Option ℚ :=
  match a, b with
  | some x, some y => some (x * y)
  | _, _ => none

/-- Stable insertion step of the JS array sort with comparator `ltb`
(an element moves ahead only where the comparator orders it strictly
earlier). -/
def insertByJs (ltb : Level → Level → Bool) (x : Level) : List Level → List Level
  | [] => [x]
  | y :: ys => if ltb x y then x :: y :: ys else y :: insertByJs ltb x ys

/-- Stable sort by comparator `ltb`, modelling `Array.prototype.sort`
with a numeric comparator.  For a consistent comparator (all keys
well-formed numbers) this is exactly the engine's stable sorted result;
when the comparator is inconsistent (a `NaN` key, where the engine's
order is unspecified) the model keeps the relative order of
incomparable elements, and no theorem below relies on sorting more than
one `NaN`-keyed element. -/
def sortByJs (ltb : Level → Level → Bool) : List Level → List Level
  | [] => []
  | x :: xs => insertByJs ltb x (sortByJs ltb xs)

/-- The ask comparator `(a, b) => a.price - b.price` (ascending). -/
def ltbAsc (a b : Level) : Bool := jsLtOpt a.price b.price

/-- The bid comparator `(a, b) => b.price - a.price` (descending). -/
def ltbDesc (a b : Level) : Bool := jsLtOpt b.price a.price

/-- `levels.splice(index, 1)` after `findIndex`: drop the first level
whose price is `===` the given price (no-op when none matches). -/
def removeFirstLevel : List Level → Option ℚ → List Level
  | [], _ => []
  | l :: ls, price =>
    if jsEq l.price price then ls else l :: removeFirstLevel ls price

/-- `levels[index].size = size` after `findIndex`: overwrite the size of
the first level whose price matches; `none` when no level matches. -/
def setFirstSize : List Level → Option ℚ → Option ℚ → Option (List Level)
  | [], _, _ => none
  | l :: ls, price, size =>
    if jsEq l.price price then some ({ l with size := size } :: ls)
    else (setFirstSize ls price size).map (l :: ·)

/-- `PolymarketWebSocketClient.updateLevel`: remove on size 0, overwrite
an existing level, else push, then re-sort the side. -/
def updateLevel (levels : List Level) (price size : Option ℚ) (isBid : Bool) :
    List Level :=
  let updated :=
    if jsEq size (some 0) then removeFirstLevel levels price
    else
      match setFirstSize levels price size with
      | some ls => ls
      | none => levels ++ [{ price := price, size := size }]
  if isBid then sortByJs ltbDesc updated else sortByJs ltbAsc updated

/-- The client's book state (`OrderBook`). -/
structure JsBook where
  bids : List Level
  asks : List Level
  lastUpdate : ℤ
deriving DecidableEq, Repr

/-- An observed market trade (`Trade`). -/
structure JsTrade where
  timestamp : ℤ
  side : Side
  price : Option ℚ
  size : Option ℚ
  notional : Option ℚ
deriving DecidableEq, Repr

/-- The mutable state of `PolymarketWebSocketClient`. -/
structure ClientState where
  tokenId : String
  trades : List JsTrade
  orderBook : JsBook
deriving DecidableEq, Repr

/-- A parsed `book` snapshot message. -/
structure BookMsg where
  assetId : String
  bids : List Level
  asks : List Level
  timestamp : ℤ
deriving DecidableEq, Repr

/-- A parsed `last_trade_price` message. -/
structure TradeMsg where
  assetId : String
  price : Option ℚ
  side : Side
  size : Option ℚ
  timestamp : ℤ
deriving DecidableEq, Repr

/-- One entry of a `price_change` message. -/
structure PriceChangeItem where
  assetId : String
  price : Option ℚ
  size : Option ℚ
  side : Side
deriving DecidableEq, Repr

/-- A parsed `price_change` message. -/
structure PriceChangeMsg where
  changes : List PriceChangeItem
  timestamp : ℤ
deriving DecidableEq, Repr

/-- `PolymarketWebSocketClient.handleBookMessage`: drop messages for
other instruments, else replace the book wholesale with the sorted
parsed sides. -/
def handleBookMessage (st : ClientState) (m : BookMsg) : ClientState :=
  if m.assetId ≠ st.tokenId then st
  else
    { st with
      orderBook :=
        { bids := sortByJs ltbDesc m.bids
          asks := sortByJs ltbAsc m.asks
          lastUpdate := m.timestamp } }

/-- The `Trade` record built by `handleTradeMessage`. -/
def tradeOfMsg (m : TradeMsg) : JsTrade :=
  { timestamp := m.timestamp
    side := m.side
    price := m.price
    size := m.size
    notional := jsMul m.price m.size }

/-- `PolymarketWebSocketClient.handleTradeMessage`: prepend the trade
(no instrument filter) and cap the buffer at 100. -/
def handleTradeMessage (st : ClientState) (m : TradeMsg) : ClientState :=
  let trades' := tradeOfMsg m :: st.trades
  { st with trades := if 100 < trades'.length then trades'.take 100 else trades' }

/-- The per-delta body of `handlePriceChange`: skip deltas for other
instruments, else update the matching side. -/
def applyPriceDelta (tokenId : String) (ob : JsBook) (ch : PriceChangeItem) :
    JsBook :=
  if ch.assetId ≠ tokenId then ob
  else
    match ch.side with
    | Side.buy => { ob with bids := updateLevel ob.bids ch.price ch.size true }
    | Side.sell => { ob with asks := updateLevel ob.asks ch.price ch.size false }

/-- `PolymarketWebSocketClient.handlePriceChange`: fold the deltas in
list order, then stamp `lastUpdate`. -/
def handlePriceChange (st : ClientState) (m : PriceChangeMsg) : ClientState :=
  let ob := m.changes.foldl (applyPriceDelta st.tokenId) st.orderBook
  { st with orderBook := { ob with lastUpdate := m.timestamp } }

/-! ### Sorting lemmas for the client's sides -/

/-- The rational value of a well-formed parsed price (junk 0 on `NaN`;
only used under well-formedness hypotheses). -/
def priceκ (l : Level) : ℚ := l.price.getD 0

/-- Every level on the side has a well-formed price. -/
def allPricesSome (xs : List Level) : Prop := ∀ l ∈ xs, l.price ≠ none

/-- Strictly ascending by price (the ask-side invariant). -/
def strictAsc (xs : List Level) : Prop :=
  xs.Pairwise (fun a b => priceκ a < priceκ b)

/-- Strictly descending by price (the bid-side invariant). -/
def strictDesc (xs : List Level) : Prop :=
  xs.Pairwise (fun a b => priceκ b < priceκ a)

lemma insertByJs_perm (ltb : Level → Level → Bool) (x : Level) (xs : List Level) :
    List.Perm (insertByJs ltb x xs) (x :: xs) := by
  induction xs with
  | nil => exact List.Perm.refl _
  | cons y ys ih =>
    rw [insertByJs]
    by_cases h : ltb x y = true
    · rw [if_pos h]
    · rw [if_neg h]
      exact (ih.cons y).trans (List.Perm.swap x y ys)

lemma sortByJs_perm (ltb : Level → Level → Bool) (xs : List Level) :
    List.Perm (sortByJs ltb xs) xs := by
  induction xs with
  | nil => exact List.Perm.refl _
  | cons x ys ih =>
    rw [sortByJs]
    exact (insertByJs_perm ltb x (sortByJs ltb ys)).trans (ih.cons x)

lemma insertByJs_pairwise (ltb : Level → Level → Bool) (κ : Level → ℚ)
    (x : Level) (xs : List Level)
    (hc : ∀ a b, a ∈ x :: xs → b ∈ x :: xs → (ltb a b = true ↔ κ a < κ b))
    (hs : xs.Pairwise (fun a b => κ a ≤ κ b)) :
    (insertByJs ltb x xs).Pairwise (fun a b => κ a ≤ κ b) := by
  induction xs with
  | nil => simp [insertByJs]
  | cons y ys ih =>
    rw [List.pairwise_cons] at hs
    rw [insertByJs]
    by_cases h : ltb x y = true
    · rw [if_pos h]
      have hxy : κ x < κ y :=
        (hc x y (List.mem_cons_self _ _)
          (List.mem_cons_of_mem _ (List.mem_cons_self _ _))).mp h
      refine List.pairwise_cons.mpr ⟨?_, List.pairwise_cons.mpr ⟨hs.1, hs.2⟩⟩
      intro z hz
      rcases List.mem_cons.mp hz with rfl | hz'
      · exact le_of_lt hxy
      · exact le_of_lt (lt_of_lt_of_le hxy (hs.1 z hz'))
    · rw [if_neg h]
      have hyx : κ y ≤ κ x := by
        by_contra hlt
        exact h ((hc x y (List.mem_cons_self _ _)
          (List.mem_cons_of_mem _ (List.mem_cons_self _ _))).mpr (not_le.mp hlt))
      have hc' : ∀ a b, a ∈ x :: ys → b ∈ x :: ys → (ltb a b = true ↔ κ a < κ b) := by
        intro a b ha hb
        refine hc a b ?_ ?_
        · rcases List.mem_cons.mp ha with rfl | ha'
          · exact List.mem_cons_self _ _
          · exact List.mem_cons_of_mem _ (List.mem_cons_of_mem _ ha')
        · rcases List.mem_cons.mp hb with rfl | hb'
          · exact List.mem_cons_self _ _
          · exact List.mem_cons_of_mem _ (List.mem_cons_of_mem _ hb')
      refine List.pairwise_cons.mpr ⟨?_, ih hc' hs.2⟩
      intro z hz
      rcases List.mem_cons.mp ((insertByJs_perm ltb x ys).mem_iff.mp hz)
        with rfl | hz'
      · exact hyx
      · exact hs.1 z hz'

lemma sortByJs_pairwise (ltb : Level → Level → Bool) (κ : Level → ℚ)
    (xs : List Level)
    (hc : ∀ a b, a ∈ xs → b ∈ xs → (ltb a b = true ↔ κ a < κ b)) :
    (sortByJs ltb xs).Pairwise (fun a b => κ a ≤ κ b) := by
  induction xs with
  | nil => simp [sortByJs]
  | cons x ys ih =>
    rw [sortByJs]
    apply insertByJs_pairwise ltb κ
    · intro a b ha hb
      refine hc a b ?_ ?_
      · rcases List.mem_cons.mp ha with rfl | ha'
        · exact List.mem_cons_self _ _
        · exact List.mem_cons_of_mem _ ((sortByJs_perm ltb ys).mem_iff.mp ha')
      · rcases List.mem_cons.mp hb with rfl | hb'
        · exact List.mem_cons_self _ _
        · exact List.mem_cons_of_mem _ ((sortByJs_perm ltb ys).mem_iff.mp hb')
    · exact ih (fun a b ha hb =>
        hc a b (List.mem_cons_of_mem _ ha) (List.mem_cons_of_mem _ hb))

lemma insertByJs_of_lt_head (ltb : Level → Level → Bool) (x : Level)
    (xs : List Level) (h : ∀ y ∈ xs.head?, ltb x y = true) :
    insertByJs ltb x xs = x :: xs := by
  cases xs with
  | nil => rfl
  | cons y ys =>
    rw [insertByJs, if_pos (h y rfl)]

lemma sortByJs_of_sorted (ltb : Level → Level → Bool) (κ : Level → ℚ)
    {xs : List Level}
    (hc : ∀ a b, a ∈ xs → b ∈ xs → (ltb a b = true ↔ κ a < κ b))
    (hs : xs.Pairwise (fun a b => κ a < κ b)) : sortByJs ltb xs = xs := by
  induction xs with
  | nil => rfl
  | cons x ys ih =>
    rw [List.pairwise_cons] at hs
    rw [sortByJs,
      ih (fun a b ha hb =>
        hc a b (List.mem_cons_of_mem _ ha) (List.mem_cons_of_mem _ hb)) hs.2]
    apply insertByJs_of_lt_head
    intro y hy
    cases ys with
    | nil => simp at hy
    | cons z zs =>
      simp at hy
      subst hy
      exact (hc x z (List.mem_cons_self _ _)
        (List.mem_cons_of_mem _ (List.mem_cons_self _ _))).mpr
        (hs.1 z (List.mem_cons_self _ _))

lemma ltbAsc_consistent {xs : List Level} (h : allPricesSome xs) :
    ∀ a b, a ∈ xs → b ∈ xs → (ltbAsc a b = true ↔ priceκ a < priceκ b) := by
  intro a b ha hb
  cases hpa : a.price with
  | none => exact absurd hpa (h a ha)
  | some pa =>
    cases hpb : b.price with
    | none => exact absurd hpb (h b hb)
    | some pb => simp [ltbAsc, jsLtOpt, hpa, hpb, priceκ]

lemma ltbDesc_consistent {xs : List Level} (h : allPricesSome xs) :
    ∀ a b, a ∈ xs → b ∈ xs →
      (ltbDesc a b = true ↔ (fun l => -priceκ l) a < (fun l => -priceκ l) b) := by
  intro a b ha hb
  cases hpa : a.price with
  | none => exact absurd hpa (h a ha)
  | some pa =>
    cases hpb : b.price with
    | none => exact absurd hpb (h b hb)
    | some pb => simp [ltbDesc, jsLtOpt, hpa, hpb, priceκ]

lemma jsEq_some_iff (x : Option ℚ) (p : ℚ) : jsEq x (some p) = true ↔ x = some p := by
  cases x with
  | none => simp [jsEq]
  | some v => simp [jsEq]

lemma removeFirstLevel_sublist (ls : List Level) (p : Option ℚ) :
    List.Sublist (removeFirstLevel ls p) ls := by
  induction ls with
  | nil => exact List.Sublist.refl _
  | cons l rest ih =>
    rw [removeFirstLevel]
    by_cases h : jsEq l.price p = true
    · rw [if_pos h]
      exact (List.Sublist.refl _).cons l
    · rw [if_neg h]
      exact ih.cons₂ l

lemma removeFirstLevel_no_match {ls : List Level} {p : ℚ}
    (hnd : ls.Pairwise (fun a b => a.price ≠ b.price)) :
    ∀ l ∈ removeFirstLevel ls (some p), l.price ≠ some p := by
  induction ls with
  | nil => simp [removeFirstLevel]
  | cons hd rest ih =>
    rw [List.pairwise_cons] at hnd
    rw [removeFirstLevel]
    by_cases h : jsEq hd.price (some p) = true
    · rw [if_pos h]
      have hp : hd.price = some p := (jsEq_some_iff _ _).mp h
      intro l hl hlp
      exact hnd.1 l hl (hp.trans hlp.symm)
    · rw [if_neg h]
      intro l hl
      rcases List.mem_cons.mp hl with rfl | hl'
      · intro hlp
        exact h ((jsEq_some_iff _ _).mpr hlp)
      · exact ih hnd.2 l hl'

lemma removeFirstLevel_length {ls : List Level} {p : Option ℚ}
    (hex : ∃ l ∈ ls, jsEq l.price p = true) :
    (removeFirstLevel ls p).length + 1 = ls.length := by
  induction ls with
  | nil => simp at hex
  | cons hd rest ih =>
    rw [removeFirstLevel]
    by_cases h : jsEq hd.price p = true
    · rw [if_pos h]
      simp
    · rw [if_neg h]
      obtain ⟨l, hl, hlp⟩ := hex
      rcases List.mem_cons.mp hl with rfl | hl'
      · exact absurd hlp h
      · simp [ih ⟨l, hl', hlp⟩]

lemma setFirstSize_eq_none {ls : List Level} {p s : Option ℚ}
    (h : ∀ l ∈ ls, jsEq l.price p = false) : setFirstSize ls p s = none := by
  induction ls with
  | nil => rfl
  | cons hd rest ih =>
    rw [setFirstSize]
    rw [if_neg (by simp [h hd (List.mem_cons_self _ _)]),
      ih (fun l hl => h l (List.mem_cons_of_mem _ hl))]
    rfl

lemma setFirstSize_some {ls : List Level} {p s : Option ℚ}
    (hex : ∃ l ∈ ls, jsEq l.price p = true) :
    ∃ ls', setFirstSize ls p s = some ls' := by
  induction ls with
  | nil => simp at hex
  | cons hd rest ih =>
    rw [setFirstSize]
    by_cases h : jsEq hd.price p = true
    · rw [if_pos h]
      exact ⟨_, rfl⟩
    · rw [if_neg h]
      obtain ⟨l, hl, hlp⟩ := hex
      rcases List.mem_cons.mp hl with rfl | hl'
      · exact absurd hlp h
      · obtain ⟨ls', hls'⟩ := ih ⟨l, hl', hlp⟩
        exact ⟨hd :: ls', by rw [hls']; rfl⟩

lemma setFirstSize_map_price {ls ls' : List Level} {p s : Option ℚ}
    (h : setFirstSize ls p s = some ls') :
    ls'.map Level.price = ls.map Level.price := by
  induction ls generalizing ls' with
  | nil => simp [setFirstSize] at h
  | cons hd rest ih =>
    rw [setFirstSize] at h
    by_cases hh : jsEq hd.price p = true
    · rw [if_pos hh] at h
      obtain rfl : { hd with size := s } :: rest = ls' := by simpa using h
      simp
    · rw [if_neg hh] at h
      cases hset : setFirstSize rest p s with
      | none => rw [hset] at h; simp at h
      | some ws =>
        rw [hset] at h
        obtain rfl : hd :: ws = ls' := by simpa using h
        simp [ih hset]

lemma setFirstSize_mem {ls ls' : List Level} {p s : Option ℚ}
    (h : setFirstSize ls p s = some ls') :
    ∃ l ∈ ls', jsEq l.price p = true ∧ l.size = s := by
  induction ls generalizing ls' with
  | nil => simp [setFirstSize] at h
  | cons hd rest ih =>
    rw [setFirstSize] at h
    by_cases hh : jsEq hd.price p = true
    · rw [if_pos hh] at h
      obtain rfl : { hd with size := s } :: rest = ls' := by simpa using h
      exact ⟨{ hd with size := s }, List.mem_cons_self _ _, by simpa using hh, rfl⟩
    · rw [if_neg hh] at h
      cases hset : setFirstSize rest p s with
      | none => rw [hset] at h; simp at h
      | some ws =>
        rw [hset] at h
        obtain rfl : hd :: ws = ls' := by simpa using h
        obtain ⟨l, hl, hlp, hlq⟩ := ih hset
        exact ⟨l, List.mem_cons_of_mem _ hl, hlp, hlq⟩

lemma allPricesSome_of_subset {zs ws : List Level}
    (hsub : ∀ l ∈ zs, l ∈ ws) (h : allPricesSome ws) : allPricesSome zs :=
  fun l hl => h l (hsub l hl)

lemma allPricesSome_of_map_eq {zs ws : List Level}
    (hmap : zs.map Level.price = ws.map Level.price)
    (h : allPricesSome ws) : allPricesSome zs := by
  intro l hl
  have : l.price ∈ ws.map Level.price := by
    rw [← hmap]
    exact List.mem_map_of_mem _ hl
  obtain ⟨l₀, hl₀, hp⟩ := List.mem_map.mp this
  rw [← hp]
  exact h l₀ hl₀

lemma pairwise_priceκ_of_map_eq {κ₀ : Option ℚ → ℚ} {zs ws : List Level}
    (hmap : zs.map Level.price = ws.map Level.price)
    (h : ws.Pairwise (fun a b => κ₀ a.price < κ₀ b.price)) :
    zs.Pairwise (fun a b => κ₀ a.price < κ₀ b.price) := by
  have hw : (ws.map Level.price).Pairwise (fun x y => κ₀ x < κ₀ y) :=
    (List.pairwise_map (R := fun x y => κ₀ x < κ₀ y)).mpr h
  rw [← hmap] at hw
  exact (List.pairwise_map (R := fun x y => κ₀ x < κ₀ y)).mp hw

lemma pairwise_lt_of_le_of_ne {κ : Level → ℚ} {zs : List Level}
    (hle : zs.Pairwise (fun a b => κ a ≤ κ b))
    (hne : zs.Pairwise (fun a b => κ a ≠ κ b)) :
    zs.Pairwise (fun a b => κ a < κ b) :=
  (hle.and hne).imp (fun h => lt_of_le_of_ne h.1 h.2)

lemma pairwise_ne_of_perm {κ : Level → ℚ} {zs ws : List Level}
    (hp : List.Perm zs ws) (h : ws.Pairwise (fun a b => κ a ≠ κ b)) :
    zs.Pairwise (fun a b => κ a ≠ κ b) :=
  (hp.pairwise_iff (fun hab => hab.symm)).mpr h

lemma pairwise_κ_of_map_eq {κ : Level → ℚ} {zs ws : List Level}
    (hκp : ∀ a b : Level, a.price = b.price → κ a = κ b)
    (hmap : zs.map Level.price = ws.map Level.price)
    (h : ws.Pairwise (fun a b => κ a < κ b)) :
    zs.Pairwise (fun a b => κ a < κ b) := by
  induction ws generalizing zs with
  | nil =>
    cases zs with
    | nil => simp
    | cons z zs' => simp at hmap
  | cons w ws' ih =>
    cases zs with
    | nil => simp at hmap
    | cons z zs' =>
      simp only [List.map_cons, List.cons.injEq] at hmap
      rw [List.pairwise_cons] at h ⊢
      constructor
      · intro b' hb'
        have hmem : b'.price ∈ ws'.map Level.price := by
          rw [← hmap.2]
          exact List.mem_map_of_mem _ hb'
        obtain ⟨b, hb, hbp⟩ := List.mem_map.mp hmem
        have hlt := h.1 b hb
        rw [hκp b b' hbp] at hlt
        rw [hκp z w hmap.1]
        exact hlt
      · exact ih hmap.2 h.2

/-- Ordering invariant of one side of the book: bids strictly
descending, asks strictly ascending. -/
def sideSorted (isBid : Bool) (xs : List Level) : Prop :=
  if isBid then strictDesc xs else strictAsc xs

lemma strictDesc_iff (xs : List Level) :
    strictDesc xs ↔ xs.Pairwise (fun a b => -priceκ a < -priceκ b) := by
  constructor
  · intro h
    exact h.imp (fun hab => neg_lt_neg hab)
  · intro h
    exact h.imp (fun hab => by simpa using hab)

lemma ltbAsc_iff {a b : Level} (ha : a.price ≠ none) (hb : b.price ≠ none) :
    ltbAsc a b = true ↔ priceκ a < priceκ b := by
  cases hpa : a.price with
  | none => exact absurd hpa ha
  | some pa =>
    cases hpb : b.price with
    | none => exact absurd hpb hb
    | some pb => simp [ltbAsc, jsLtOpt, hpa, hpb, priceκ]

lemma ltbDesc_iff {a b : Level} (ha : a.price ≠ none) (hb : b.price ≠ none) :
    ltbDesc a b = true ↔ -priceκ a < -priceκ b := by
  cases hpa : a.price with
  | none => exact absurd hpa ha
  | some pa =>
    cases hpb : b.price with
    | none => exact absurd hpb hb
    | some pb => simp [ltbDesc, jsLtOpt, hpa, hpb, priceκ]

/-- Shared core of the delta-application argument, generic in the side
comparator `ltb` and its rational key `κ`. -/
lemma updateCore (ltb : Level → Level → Bool) (κ : Level → ℚ)
    (hpt : ∀ a b : Level, a.price ≠ none → b.price ≠ none →
      (ltb a b = true ↔ κ a < κ b))
    (hκp : ∀ a b : Level, a.price = b.price → κ a = κ b)
    (hκinj : ∀ a b : Level, a.price ≠ none → b.price ≠ none →
      κ a = κ b → a.price = b.price)
    (levels : List Level) (p q : ℚ)
    (hwf : allPricesSome levels)
    (hs : levels.Pairwise (fun a b => κ a < κ b)) :
    (sortByJs ltb (removeFirstLevel levels (some p)) =
        removeFirstLevel levels (some p) ∧
      (removeFirstLevel levels (some p)).Pairwise (fun a b => κ a < κ b)) ∧
    (∀ ls', setFirstSize levels (some p) (some q) = some ls' →
      sortByJs ltb ls' = ls' ∧ ls'.Pairwise (fun a b => κ a < κ b) ∧
      ls'.map Level.price = levels.map Level.price) ∧
    ((∀ l ∈ levels, l.price ≠ some p) →
      List.Perm (sortByJs ltb (levels ++ [Level.mk (some p) (some q)]))
        (Level.mk (some p) (some q) :: levels) ∧
      (sortByJs ltb (levels ++ [Level.mk (some p) (some q)])).Pairwise
        (fun a b => κ a < κ b)) := by
  have hconsOf : ∀ zs : List Level, allPricesSome zs →
      ∀ a b, a ∈ zs → b ∈ zs → (ltb a b = true ↔ κ a < κ b) :=
    fun zs hz a b ha hb => hpt a b (hz a ha) (hz b hb)
  refine ⟨?_, ?_, ?_⟩
  · have hsub := removeFirstLevel_sublist levels (some p)
    have hwf' : allPricesSome (removeFirstLevel levels (some p)) :=
      allPricesSome_of_subset (fun l hl => hsub.mem hl) hwf
    have hs' := hs.sublist hsub
    exact ⟨sortByJs_of_sorted ltb κ (hconsOf _ hwf') hs', hs'⟩
  · intro ls' hset
    have hmap := setFirstSize_map_price hset
    have hwf' : allPricesSome ls' := allPricesSome_of_map_eq hmap hwf
    have hs' : ls'.Pairwise (fun a b => κ a < κ b) :=
      pairwise_κ_of_map_eq hκp hmap hs
    exact ⟨sortByJs_of_sorted ltb κ (hconsOf _ hwf') hs', hs', hmap⟩
  · intro hnomem
    set x : Level := Level.mk (some p) (some q) with hx
    have hwfx : allPricesSome (levels ++ [x]) := by
      intro l hl
      rcases List.mem_append.mp hl with hl' | hl'
      · exact hwf l hl'
      · simp at hl'
        subst hl'
        simp [hx]
    have hperm : List.Perm (sortByJs ltb (levels ++ [x])) (x :: levels) :=
      (sortByJs_perm ltb _).trans (List.perm_append_singleton x levels)
    have hle := sortByJs_pairwise ltb κ (levels ++ [x]) (hconsOf _ hwfx)
    have hnein : (levels ++ [x]).Pairwise (fun a b => κ a ≠ κ b) := by
      rw [List.pairwise_append]
      refine ⟨hs.imp ne_of_lt, by simp, ?_⟩
      intro a ha b hb
      simp at hb
      subst hb
      intro hκab
      have hpx : a.price = x.price :=
        hκinj a x (hwf a ha) (by simp [hx]) hκab
      exact hnomem a ha (by simpa [hx] using hpx)
    have hne : (sortByJs ltb (levels ++ [x])).Pairwise (fun a b => κ a ≠ κ b) :=
      pairwise_ne_of_perm (sortByJs_perm ltb _) hnein
    exact ⟨hperm, pairwise_lt_of_le_of_ne hle hne⟩

/-- **C5**: a delta for the subscribed instrument with a well-formed
price and size behaves as claimed on a well-formed sorted side:
`size = 0` removes the level at that exact price (leaving no level at
it), `size > 0` on an existing price overwrites its size in place
(same price multiset, no duplicate), `size > 0` on a fresh price
inserts the new level preserving the side's ordering invariant, and a
delta for a different instrument leaves the book unchanged. -/
theorem priceChange_delta_semantics (levels : List Level) (p q : ℚ) (isBid : Bool)
    (hwf : allPricesSome levels) (hsorted : sideSorted isBid levels) :
    (updateLevel levels (some p) (some 0) isBid = removeFirstLevel levels (some p) ∧
     sideSorted isBid (removeFirstLevel levels (some p)) ∧
     (∀ l ∈ removeFirstLevel levels (some p), l.price ≠ some p) ∧
     ((∃ l ∈ levels, l.price = some p) →
        (removeFirstLevel levels (some p)).length + 1 = levels.length)) ∧
    (0 < q → (∃ l ∈ levels, l.price = some p) →
      (updateLevel levels (some p) (some q) isBid).map Level.price =
        levels.map Level.price ∧
      Level.mk (some p) (some q) ∈ updateLevel levels (some p) (some q) isBid ∧
      sideSorted isBid (updateLevel levels (some p) (some q) isBid)) ∧
    (0 < q → (∀ l ∈ levels, l.price ≠ some p) →
      List.Perm (updateLevel levels (some p) (some q) isBid)
        (Level.mk (some p) (some q) :: levels) ∧
      sideSorted isBid (updateLevel levels (some p) (some q) isBid)) ∧
    (∀ (tokenId : String) (ob : JsBook) (ch : PriceChangeItem),
      ch.assetId ≠ tokenId → applyPriceDelta tokenId ob ch = ob) := by
  have hwrapper : ∀ (tokenId : String) (ob : JsBook) (ch : PriceChangeItem),
      ch.assetId ≠ tokenId → applyPriceDelta tokenId ob ch = ob := by
    intro tokenId ob ch hne
    simp [applyPriceDelta, hne]
  have hnd : levels.Pairwise (fun a b => a.price ≠ b.price) := by
    cases isBid with
    | false =>
      have hs : strictAsc levels := by simpa [sideSorted] using hsorted
      refine hs.imp ?_
      intro a b hab hpab
      exact absurd (by simp [priceκ, hpab]) (ne_of_lt hab)
    | true =>
      have hs : strictDesc levels := by simpa [sideSorted] using hsorted
      refine hs.imp ?_
      intro a b hab hpab
      exact absurd (by simp [priceκ, hpab]) (ne_of_gt hab)
  cases isBid with
  | false =>
    have hs : strictAsc levels := by simpa [sideSorted] using hsorted
    have hcore := updateCore ltbAsc priceκ
      (fun a b ha hb => ltbAsc_iff ha hb)
      (fun a b h => by simp [priceκ, h])
      (fun a b ha hb h => by
        cases hpa : a.price with
        | none => exact absurd hpa ha
        | some pa =>
          cases hpb : b.price with
          | none => exact absurd hpb hb
          | some pb =>
            have h' : pa = pb := by simpa [priceκ, hpa, hpb] using h
            rw [h'])
      levels p q hwf hs
    refine ⟨?_, ?_, ?_, hwrapper⟩
    · have hrm := hcore.1
      refine ⟨?_, by simpa [sideSorted] using hrm.2, removeFirstLevel_no_match hnd, ?_⟩
      · have h00 : jsEq (some 0) (some 0) = true := by simp [jsEq]
        simp only [updateLevel, h00, if_true]
        exact hrm.1
      · intro hex
        obtain ⟨l, hl, hlp⟩ := hex
        exact removeFirstLevel_length ⟨l, hl, (jsEq_some_iff _ _).mpr hlp⟩
    · intro hq hex
      obtain ⟨l, hl, hlp⟩ := hex
      obtain ⟨ls', hset⟩ :=
        setFirstSize_some (s := some q) ⟨l, hl, (jsEq_some_iff _ _).mpr hlp⟩
      have hq0 : jsEq (some q) (some 0) = false := by
        simp [jsEq]
        exact ne_of_gt hq
      have heq : updateLevel levels (some p) (some q) false = sortByJs ltbAsc ls' := by
        simp only [updateLevel, hq0, Bool.false_eq_true, if_false, hset]
      have hov := hcore.2.1 ls' hset
      rw [heq, hov.1]
      refine ⟨hov.2.2, ?_, by simpa [sideSorted] using hov.2.1⟩
      obtain ⟨l₀, hl₀, hl₀p, hl₀s⟩ := setFirstSize_mem hset
      have : l₀ = Level.mk (some p) (some q) := by
        cases l₀
        simp at hl₀s
        obtain rfl := (jsEq_some_iff _ _).mp hl₀p
        simp [hl₀s]
      rw [← this]
      exact hl₀
    · intro hq hno
      have hq0 : jsEq (some q) (some 0) = false := by
        simp [jsEq]
        exact ne_of_gt hq
      have hnone : setFirstSize levels (some p) (some q) = none := by
        apply setFirstSize_eq_none
        intro l hl
        by_contra hcontra
        exact hno l hl ((jsEq_some_iff _ _).mp (by simpa using hcontra))
      have heq : updateLevel levels (some p) (some q) false =
          sortByJs ltbAsc (levels ++ [Level.mk (some p) (some q)]) := by
        simp only [updateLevel, hq0, Bool.false_eq_true, if_false, hnone]
      have hins := hcore.2.2 hno
      rw [heq]
      exact ⟨hins.1, by simpa [sideSorted] using hins.2⟩
  | true =>
    have hs : strictDesc levels := by simpa [sideSorted] using hsorted
    have hcore := updateCore ltbDesc (fun l => -priceκ l)
      (fun a b ha hb => ltbDesc_iff ha hb)
      (fun a b h => by simp [priceκ, h])
      (fun a b ha hb h => by
        cases hpa : a.price with
        | none => exact absurd hpa ha
        | some pa =>
          cases hpb : b.price with
          | none => exact absurd hpb hb
          | some pb =>
            have h' : pa = pb := by simpa [priceκ, hpa, hpb] using h
            rw [h'])
      levels p q hwf ((strictDesc_iff levels).mp hs)
    refine ⟨?_, ?_, ?_, hwrapper⟩
    · have hrm := hcore.1
      refine ⟨?_, ?_, removeFirstLevel_no_match hnd, ?_⟩
      · have h00 : jsEq (some 0) (some 0) = true := by simp [jsEq]
        simp only [updateLevel, h00, if_true]
        exact hrm.1
      · show strictDesc _
        exact (strictDesc_iff _).mpr hrm.2
      · intro hex
        obtain ⟨l, hl, hlp⟩ := hex
        exact removeFirstLevel_length ⟨l, hl, (jsEq_some_iff _ _).mpr hlp⟩
    · intro hq hex
      obtain ⟨l, hl, hlp⟩ := hex
      obtain ⟨ls', hset⟩ :=
        setFirstSize_some (s := some q) ⟨l, hl, (jsEq_some_iff _ _).mpr hlp⟩
      have hq0 : jsEq (some q) (some 0) = false := by
        simp [jsEq]
        exact ne_of_gt hq
      have heq : updateLevel levels (some p) (some q) true = sortByJs ltbDesc ls' := by
        simp only [updateLevel, hq0, Bool.false_eq_true, if_false, hset]
        rw [if_pos trivial]
      have hov := hcore.2.1 ls' hset
      rw [heq, hov.1]
      refine ⟨hov.2.2, ?_, ?_⟩
      · obtain ⟨l₀, hl₀, hl₀p, hl₀s⟩ := setFirstSize_mem hset
        have : l₀ = Level.mk (some p) (some q) := by
          cases l₀
          simp at hl₀s
          obtain rfl := (jsEq_some_iff _ _).mp hl₀p
          simp [hl₀s]
        rw [← this]
        exact hl₀
      · show strictDesc _
        exact (strictDesc_iff _).mpr hov.2.1
    · intro hq hno
      have hq0 : jsEq (some q) (some 0) = false := by
        simp [jsEq]
        exact ne_of_gt hq
      have hnone : setFirstSize levels (some p) (some q) = none := by
        apply setFirstSize_eq_none
        intro l hl
        by_contra hcontra
        exact hno l hl ((jsEq_some_iff _ _).mp (by simpa using hcontra))
      have heq : updateLevel levels (some p) (some q) true =
          sortByJs ltbDesc (levels ++ [Level.mk (some p) (some q)]) := by
        simp only [updateLevel, hq0, Bool.false_eq_true, if_false, hnone]
        rw [if_pos trivial]
      have hins := hcore.2.2 hno
      rw [heq]
      refine ⟨hins.1, ?_⟩
      show strictDesc _
      exact (strictDesc_iff _).mpr hins.2

/-- Concrete ask side used to witness C5. -/
def wLevels : List Level := [⟨some (2/5), some 1⟩, ⟨some (1/2), some 2⟩]

/-- Witness for C5: removing the 0.5 level from a concrete sorted ask
side by a size-0 delta. -/
theorem priceChange_delta_semantics_witness :
    allPricesSome wLevels ∧ sideSorted false wLevels ∧
    updateLevel wLevels (some (1/2 : ℚ)) (some 0) false =
      removeFirstLevel wLevels (some (1/2 : ℚ)) := by
  have hwf : allPricesSome wLevels := by
    intro l hl
    simp [wLevels] at hl
    rcases hl with rfl | rfl <;> simp
  have hsorted : sideSorted false wLevels := by
    simp [sideSorted, strictAsc, wLevels, List.pairwise_cons, priceκ]
    norm_num
  exact ⟨hwf, hsorted,
    (priceChange_delta_semantics wLevels (1/2) 3 false hwf hsorted).1.1⟩

/-- Strictness and permutation of a full side sort, generic in the
comparator and its key. -/
lemma sortByJs_strict (ltb : Level → Level → Bool) (κ : Level → ℚ)
    (hpt : ∀ a b : Level, a.price ≠ none → b.price ≠ none →
      (ltb a b = true ↔ κ a < κ b))
    (hκinj : ∀ a b : Level, a.price ≠ none → b.price ≠ none →
      κ a = κ b → a.price = b.price)
    {xs : List Level} (hwf : allPricesSome xs)
    (hnd : xs.Pairwise (fun a b => a.price ≠ b.price)) :
    (sortByJs ltb xs).Pairwise (fun a b => κ a < κ b) ∧
    List.Perm (sortByJs ltb xs) xs := by
  have hle := sortByJs_pairwise ltb κ xs
    (fun a b ha hb => hpt a b (hwf a ha) (hwf b hb))
  have hnexs : xs.Pairwise (fun a b => κ a ≠ κ b) := by
    refine List.Pairwise.imp_of_mem ?_ hnd
    intro a b ha hb hab hκab
    exact hab (hκinj a b (hwf a ha) (hwf b hb) hκab)
  have hne := pairwise_ne_of_perm (sortByJs_perm ltb xs) hnexs
  exact ⟨pairwise_lt_of_le_of_ne hle hne, sortByJs_perm ltb xs⟩

lemma priceκ_inj : ∀ a b : Level, a.price ≠ none → b.price ≠ none →
    priceκ a = priceκ b → a.price = b.price := by
  intro a b ha hb h
  cases hpa : a.price with
  | none => exact absurd hpa ha
  | some pa =>
    cases hpb : b.price with
    | none => exact absurd hpb hb
    | some pb =>
      have h' : pa = pb := by simpa [priceκ, hpa, hpb] using h
      rw [h']

lemma negPriceκ_inj : ∀ a b : Level, a.price ≠ none → b.price ≠ none →
    -priceκ a = -priceκ b → a.price = b.price := by
  intro a b ha hb h
  exact priceκ_inj a b ha hb (neg_inj.mp h)

/-- Client state with an empty book, used for counterexamples. -/
def cexSt : ClientState :=
  { tokenId := "tok", trades := [], orderBook := ⟨[], [], 0⟩ }

/-- A snapshot message carrying two bid levels at the same price. -/
def cexBookMsg : BookMsg :=
  { assetId := "tok"
    bids := [⟨some (1/2), some 1⟩, ⟨some (1/2), some 2⟩]
    asks := []
    timestamp := 1 }

/-- **C6 counterexample**: the snapshot handler performs no
deduplication, so a wire snapshot listing two levels at one price
produces a book side with a duplicated price, violating the claimed
"no two levels share a price". -/
theorem bookSnapshot_duplicate_cex :
    (handleBookMessage cexSt cexBookMsg).orderBook.bids.map Level.price =
      [some (1/2), some (1/2)] ∧
    ¬ ((handleBookMessage cexSt cexBookMsg).orderBook.bids.map Level.price).Nodup := by
  have h : (handleBookMessage cexSt cexBookMsg).orderBook.bids.map Level.price =
      [some (1/2), some (1/2)] := by
    norm_num [handleBookMessage, cexSt, cexBookMsg, sortByJs, insertByJs,
      ltbDesc, jsLtOpt]
  refine ⟨h, ?_⟩
  rw [h]
  simp

/-- **C6 (amended)**: a snapshot for the subscribed instrument whose
per-side wire levels have well-formed, pairwise-distinct prices yields
bids strictly descending and asks strictly ascending (hence no two
levels on a side share a price), each side a permutation of the parsed
wire levels; without the distinctness premise a duplicated wire price
survives into the book. -/
theorem bookSnapshot_sorted (st : ClientState) (m : BookMsg)
    (hid : m.assetId = st.tokenId)
    (hwfb : allPricesSome m.bids) (hwfa : allPricesSome m.asks)
    (hndb : m.bids.Pairwise (fun a b => a.price ≠ b.price))
    (hnda : m.asks.Pairwise (fun a b => a.price ≠ b.price)) :
    strictDesc (handleBookMessage st m).orderBook.bids ∧
    strictAsc (handleBookMessage st m).orderBook.asks ∧
    List.Perm (handleBookMessage st m).orderBook.bids m.bids ∧
    List.Perm (handleBookMessage st m).orderBook.asks m.asks := by
  have hb : (handleBookMessage st m).orderBook.bids = sortByJs ltbDesc m.bids := by
    simp [handleBookMessage, hid]
  have ha : (handleBookMessage st m).orderBook.asks = sortByJs ltbAsc m.asks := by
    simp [handleBookMessage, hid]
  have hbids := sortByJs_strict ltbDesc (fun l => -priceκ l)
    (fun a b hpa hpb => ltbDesc_iff hpa hpb) negPriceκ_inj hwfb hndb
  have hasks := sortByJs_strict ltbAsc priceκ
    (fun a b hpa hpb => ltbAsc_iff hpa hpb) priceκ_inj hwfa hnda
  rw [hb, ha]
  exact ⟨(strictDesc_iff _).mpr hbids.1, hasks.1, hbids.2, hasks.2⟩

/-- Witness for C6 at a concrete snapshot message. -/
theorem bookSnapshot_sorted_witness :
    ("b" : String) = cexSt.tokenId ∨
    (strictDesc (handleBookMessage cexSt
        { assetId := "tok", bids := [⟨some (3/5), some 1⟩, ⟨some (2/5), some 2⟩],
          asks := [⟨some (7/10), some 1⟩], timestamp := 2 }).orderBook.bids ∧
      strictAsc (handleBookMessage cexSt
        { assetId := "tok", bids := [⟨some (3/5), some 1⟩, ⟨some (2/5), some 2⟩],
          asks := [⟨some (7/10), some 1⟩], timestamp := 2 }).orderBook.asks) := by
  right
  have h := bookSnapshot_sorted cexSt
    { assetId := "tok", bids := [⟨some (3/5), some 1⟩, ⟨some (2/5), some 2⟩],
      asks := [⟨some (7/10), some 1⟩], timestamp := 2 }
    rfl
    (by intro l hl; simp at hl; rcases hl with rfl | rfl <;> simp)
    (by intro l hl; simp at hl; subst hl; simp)
    (by simp [List.pairwise_cons]; norm_num)
    (by simp)
  exact ⟨h.1, h.2.1⟩

/-- A price-change delta whose size numeral is malformed
(`parseFloat` yields `NaN`). -/
def cexDelta : PriceChangeItem :=
  { assetId := "tok", price := some (1/2), size := none, side := Side.sell }

/-- **C7 counterexample**: a delta whose size fails to parse is **not**
discarded: `NaN === 0` is false, `findIndex` never matches a `NaN`
comparison, and the level is pushed, so the malformed level lands in
the book with a `NaN` size. -/
theorem malformed_level_retained_cex :
    (handlePriceChange cexSt { changes := [cexDelta], timestamp := 5 }).orderBook.asks =
      [⟨some (1/2), none⟩] := by
  norm_num [handlePriceChange, applyPriceDelta, cexSt, cexDelta, updateLevel,
    jsEq, setFirstSize, sortByJs, insertByJs]

/-- **C7 (amended)**: a level with a malformed numeric field parses to
`NaN` and is **retained** (with the `NaN` field) rather than discarded;
the update is still applied non-fatally: a snapshot keeps every parsed
level of the wire message (a permutation per side), and a price-change
delta with an unparsable size still lands a `NaN`-sized level on its
side. -/
theorem malformed_level_retained (st : ClientState) (m : BookMsg)
    (ob : JsBook) (ch : PriceChangeItem) :
    (m.assetId = st.tokenId →
      List.Perm (handleBookMessage st m).orderBook.bids m.bids ∧
      List.Perm (handleBookMessage st m).orderBook.asks m.asks) ∧
    (ch.assetId = st.tokenId → ch.side = Side.sell → ch.size = none →
      ∃ l ∈ (applyPriceDelta st.tokenId ob ch).asks, l.size = none) := by
  constructor
  · intro hid
    have hb : (handleBookMessage st m).orderBook.bids = sortByJs ltbDesc m.bids := by
      simp [handleBookMessage, hid]
    have ha : (handleBookMessage st m).orderBook.asks = sortByJs ltbAsc m.asks := by
      simp [handleBookMessage, hid]
    rw [hb, ha]
    exact ⟨sortByJs_perm _ _, sortByJs_perm _ _⟩
  · intro hid hside hsz
    have happ : (applyPriceDelta st.tokenId ob ch).asks =
        updateLevel ob.asks ch.price ch.size false := by
      simp [applyPriceDelta, hid, hside]
    rw [happ, hsz]
    have h0 : jsEq (none : Option ℚ) (some 0) = false := rfl
    simp only [updateLevel, h0, Bool.false_eq_true, if_false]
    cases hset : setFirstSize ob.asks ch.price none with
    | some ls' =>
      obtain ⟨l, hl, _, hlsz⟩ := setFirstSize_mem hset
      exact ⟨l, (sortByJs_perm ltbAsc ls').mem_iff.mpr hl, hlsz⟩
    | none =>
      refine ⟨Level.mk ch.price none, ?_, rfl⟩
      exact (sortByJs_perm ltbAsc _).mem_iff.mpr
        (List.mem_append.mpr (Or.inr (List.mem_singleton.mpr rfl)))

/-- Witness for C7 at a concrete malformed snapshot level: the level
whose price failed to parse is still in the resulting book. -/
theorem malformed_level_retained_witness :
    ("tok" : String) = cexSt.tokenId ∧
    List.Perm (handleBookMessage cexSt
        { assetId := "tok", bids := [⟨none, some 1⟩], asks := [],
          timestamp := 3 }).orderBook.bids
      [⟨none, some 1⟩] :=
  ⟨rfl,
    (malformed_level_retained cexSt
      { assetId := "tok", bids := [⟨none, some 1⟩], asks := [], timestamp := 3 }
      ⟨[], [], 0⟩ cexDelta).1 rfl |>.1⟩

/-- **C10**: `handleTradeMessage` prepends the constructed trade into
the 100-deep ring buffer for *every* inbound last-trade message — its
result never consults the message's asset id — while book snapshots and
price-change deltas for a different instrument are dropped. -/
theorem tradeMessage_unfiltered (st : ClientState) (m : TradeMsg) :
    (handleTradeMessage st m).trades = (tradeOfMsg m :: st.trades).take 100 ∧
    (handleTradeMessage st m).orderBook = st.orderBook ∧
    (handleTradeMessage st m).tokenId = st.tokenId ∧
    (∀ bm : BookMsg, bm.assetId ≠ st.tokenId → handleBookMessage st bm = st) ∧
    (∀ (ob : JsBook) (ch : PriceChangeItem), ch.assetId ≠ st.tokenId →
      applyPriceDelta st.tokenId ob ch = ob) := by
  refine ⟨?_, rfl, rfl, ?_, ?_⟩
  · show (if 100 < (tradeOfMsg m :: st.trades).length then
        (tradeOfMsg m :: st.trades).take 100
      else tradeOfMsg m :: st.trades) = (tradeOfMsg m :: st.trades).take 100
    by_cases h : 100 < (tradeOfMsg m :: st.trades).length
    · rw [if_pos h]
    · rw [if_neg h, List.take_of_length_le (le_of_not_lt h)]
  · intro bm hne
    simp [handleBookMessage, hne]
  · intro ob ch hne
    simp [applyPriceDelta, hne]

/-- A trade message naming another instrument. -/
def wOtherTradeMsg : TradeMsg :=
  { assetId := "other"
    price := some (1/2)
    side := Side.buy
    size := some 1
    timestamp := 4 }

/-- A book message naming another instrument. -/
def wOtherBookMsg : BookMsg :=
  { assetId := "other", bids := [], asks := [], timestamp := 4 }

/-- Witness for C10: a trade message for a *different* instrument still
lands in the buffer, while a book message for that instrument is
dropped. -/
theorem tradeMessage_unfiltered_witness :
    ("other" : String) ≠ cexSt.tokenId ∧
    (handleTradeMessage cexSt wOtherTradeMsg).trades =
      (tradeOfMsg wOtherTradeMsg :: cexSt.trades).take 100 ∧
    handleBookMessage cexSt wOtherBookMsg = cexSt := by
  have hne : ("other" : String) ≠ cexSt.tokenId := by simp [cexSt]
  have h := tradeMessage_unfiltered cexSt wOtherTradeMsg
  have hne2 : wOtherBookMsg.assetId ≠ cexSt.tokenId := by simp [wOtherBookMsg, cexSt]
  exact ⟨hne, h.1, h.2.2.2.1 wOtherBookMsg hne2⟩

/-! ## StrategySimulator scheduling (`src/simulator/simulator.ts`) and
the dashboard wiring (`src/index.ts`)

Strategies are modelled polymorphically: a strategy carries its own
state of some type `σ` together with its `initialize` / `evaluate` /
`onTradeExecuted` functions, mirroring the `BaseStrategy` interface. -/

/-- The fill record passed to `onTradeExecuted`. -/
structure Fill where
  side : Side
  price : ℚ
  size : ℚ
  timestamp : ℤ
deriving DecidableEq, Repr

/-- A strategy instance (`BaseStrategy` with its mutable state). -/
structure Strategy (σ : Type) where
  name : String
  enabled : Bool
  state : σ
  initFn : Ctx → σ → σ
  evalFn : Ctx → σ → StrategyResult × σ
  onFillFn : Fill → σ → σ

/-- A simulated trade record (the random id suffix of the source is not
modelled; no claim observes it). -/
structure SimTrade where
  timestamp : ℤ
  tokenId : String
  side : Side
  price : ℚ
  size : ℚ
  notional : ℚ
  strategyName : String
deriving DecidableEq, Repr

/-- The mutable state of `StrategySimulator`. -/
structure SimState (σ : Type) where
  strategies : List (Strategy σ)
  portfolio : Tracker
  simulatedTrades : List SimTrade
  currentContext : Option Ctx
  currentOrderBook : Option QBook

/-- `StrategySimulator.updateMarket`: store the book, mark the
portfolio at the midpoint-ish price, and refresh the held context if
one exists. -/
def updateMarket {σ : Type} (s : SimState σ) (tokenId : String) (ob : QBook)
    (now : ℤ) : SimState σ :=
  let bestBid := optOr (ob.bids.head?.map QLevel.price) 0
  let bestAsk := optOr (ob.asks.head?.map QLevel.price) 1
  let currentPrice : ℚ :=
    if ob.bids ≠ [] ∧ ob.asks ≠ [] then (bestBid + bestAsk) / 2
    else if ob.asks ≠ [] then bestAsk
    else if ob.bids ≠ [] then bestBid
    else 1/2
  { s with
    currentOrderBook := some ob
    portfolio := setPrice s.portfolio tokenId currentPrice
    currentContext :=
      match s.currentContext with
      | none => none
      | some c =>
        some { c with
               currentPrice := bestAsk
               bestBid := bestBid
               bestAsk := bestAsk
               timestamp := now } }

/-- `StrategySimulator.start`: store the context and initialize every
enabled strategy (the interval itself is modelled by tick events). -/
def simStart {σ : Type} (s : SimState σ) (ctx : Ctx) : SimState σ :=
  { s with
    currentContext := some ctx
    strategies := s.strategies.map (fun st =>
      if st.enabled then { st with state := st.initFn ctx st.state } else st) }

/-- The `onTradeExecuted` notification loop of `executeTrade`: notify
the first strategy with the executing strategy's name, then stop. -/
def notifyFirst {σ : Type} (name : String) (fill : Fill) :
    List (Strategy σ) → List (Strategy σ)
  | [] => []
  | st :: rest =>
    if st.name == name then { st with state := st.onFillFn fill st.state } :: rest
    else st :: notifyFirst name fill rest

/-- `StrategySimulator.executeTrade`. -/
def executeTrade {σ : Type} (s : SimState σ) (strategyName : String)
    (tr : TradeIntent) (now : ℤ) : SimState σ :=
  match s.currentContext with
  | none => s
  | some ctx =>
    let tradeTokenId :=
      match jsOrStrNone tr.tokenId with
      | some t => t
      | none => ctx.tokenId
    let executionPrice :=
      match tr.price with
      | some p => p
      | none => (calculateExecutionPrice s.currentOrderBook s.currentContext
          tr.side tr.size).1
    let simTrade : SimTrade :=
      { timestamp := now
        tokenId := tradeTokenId
        side := tr.side
        price := executionPrice
        size := tr.size
        notional := executionPrice * tr.size
        strategyName := strategyName }
    let trades' := simTrade :: s.simulatedTrades
    { s with
      portfolio := addTrade s.portfolio tradeTokenId ctx.outcome tr.side
        executionPrice tr.size now
      strategies := notifyFirst strategyName
        ⟨tr.side, executionPrice, tr.size, now⟩ s.strategies
      simulatedTrades := if 1000 < trades'.length then trades'.take 1000 else trades' }

/-- The body of the `evaluateStrategies` loop from index `i` on, with
explicit fuel (the strategy count is not changed by evaluation);
returns the evolved state and the names of the strategies evaluated. -/
def tickAux {σ : Type} (ctx : Ctx) (now : ℤ) :
    ℕ → ℕ → SimState σ → SimState σ × List String
  | 0, _, s => (s, [])
  | fuel + 1, i, s =>
    match s.strategies.get? i with
    | none => (s, [])
    | some st =>
      if st.enabled then
        let res := st.evalFn ctx st.state
        let s1 : SimState σ :=
          { s with strategies := s.strategies.set i { st with state := res.2 } }
        let s2 :=
          match res.1.trade, res.1.shouldExecute with
          | some tr, true => executeTrade s1 st.name tr now
          | _, _ => s1
        let rest := tickAux ctx now fuel (i + 1) s2
        (rest.1, st.name :: rest.2)
      else tickAux ctx now fuel (i + 1) s

/-- `StrategySimulator.evaluateStrategies` (one timer tick): skip
entirely when no context is held, else evaluate each enabled strategy in
order and execute its intents. -/
def tick {σ : Type} (s : SimState σ) (now : ℤ) : SimState σ × List String :=
  match s.currentContext with
  | none => (s, [])
  | some ctx => tickAux ctx now s.strategies.length 0 s

/-- The dashboard wiring state (`src/index.ts`): the simulator plus the
one-shot `initialContextCreated` latch. -/
structure Harness (σ : Type) where
  sim : SimState σ
  initialContextCreated : Bool
  tokenId : String
  marketName : String
  outcome : String

/-- The feed-update callback of `src/index.ts`: always push market data
into the simulator, and `start` it on the first order book with both
sides populated. -/
def onFeedUpdate {σ : Type} (h : Harness σ) (ob : QBook) (now : ℤ) : Harness σ :=
  let sim1 := updateMarket h.sim h.tokenId ob now
  if ¬ h.initialContextCreated ∧ ob.bids ≠ [] ∧ ob.asks ≠ [] then
    let bestBid := optOr (ob.bids.head?.map QLevel.price) 0
    let bestAsk := optOr (ob.asks.head?.map QLevel.price) 1
    { h with
      sim := simStart sim1
        { tokenId := h.tokenId
          marketName := h.marketName
          outcome := h.outcome
          currentPrice := bestAsk
          bestBid := bestBid
          bestAsk := bestAsk
          timestamp := now }
      initialContextCreated := true }
  else { h with sim := sim1 }

/-- An externally观察able event of the running dashboard: a feed update
or an evaluation tick. -/
inductive HarnessEvent where
  | feed (ob : QBook) (now : ℤ)
  | tickEv (now : ℤ)

/-- One harness step; tick steps also report which strategies ran. -/
def harnessStep {σ : Type} (h : Harness σ) : HarnessEvent → Harness σ × List String
  | HarnessEvent.feed ob now => (onFeedUpdate h ob now, [])
  | HarnessEvent.tickEv now =>
    let r := tick h.sim now
    ({ h with sim := r.1 }, r.2)

/-- Run a trace of events, collecting every evaluation log. -/
def runHarness {σ : Type} (h : Harness σ) : List HarnessEvent → Harness σ × List String
  | [] => (h, [])
  | e :: rest =>
    let r := harnessStep h e
    let r' := runHarness r.1 rest
    (r'.1, r.2 ++ r'.2)

/-- The fresh harness before any feed traffic. -/
def initHarness {σ : Type} (strategies : List (Strategy σ))
    (tokenId marketName outcome : String) : Harness σ :=
  { sim :=
      { strategies := strategies
        portfolio := Tracker.init
        simulatedTrades := []
        currentContext := none
        currentOrderBook := none }
    initialContextCreated := false
    tokenId := tokenId
    marketName := marketName
    outcome := outcome }

/-- An event carries no two-sided order book. -/
def noTwoSidedBook : HarnessEvent → Prop
  | HarnessEvent.feed ob _ => ob.bids = [] ∨ ob.asks = []
  | HarnessEvent.tickEv _ => True

lemma runHarness_quiescent {σ : Type} (strategies0 : List (Strategy σ)) :
    ∀ (evs : List HarnessEvent) (h : Harness σ),
      (∀ e ∈ evs, noTwoSidedBook e) →
      h.sim.currentContext = none → h.initialContextCreated = false →
      h.sim.simulatedTrades = [] → h.sim.strategies = strategies0 →
      h.sim.portfolio.positions = [] →
      (runHarness h evs).2 = [] ∧
      (runHarness h evs).1.sim.currentContext = none ∧
      (runHarness h evs).1.initialContextCreated = false ∧
      (runHarness h evs).1.sim.simulatedTrades = [] ∧
      (runHarness h evs).1.sim.strategies = strategies0 ∧
      (runHarness h evs).1.sim.portfolio.positions = [] := by
  intro evs
  induction evs with
  | nil =>
    intro h _ h1 h2 h3 h4 h5
    exact ⟨rfl, h1, h2, h3, h4, h5⟩
  | cons e rest ih =>
    intro h hq h1 h2 h3 h4 h5
    have hqrest : ∀ e' ∈ rest, noTwoSidedBook e' :=
      fun e' he' => hq e' (List.mem_cons_of_mem _ he')
    cases e with
    | feed ob now =>
      have hob : ob.bids = [] ∨ ob.asks = [] := hq _ (List.mem_cons_self _ _)
      have hstep : harnessStep h (HarnessEvent.feed ob now) =
          ({ h with sim := updateMarket h.sim h.tokenId ob now }, []) := by
        simp only [harnessStep, onFeedUpdate]
        rw [if_neg]
        rcases hob with hb | ha
        · exact fun hc => hc.2.1 hb
        · exact fun hc => hc.2.2 ha
      have hI := ih { h with sim := updateMarket h.sim h.tokenId ob now } hqrest
        (by simp [updateMarket, h1]) h2
        (by simp [updateMarket, h3]) (by simp [updateMarket, h4])
        (by simp [updateMarket, setPrice, recalculateValue, h5])
      have hrun : runHarness h (HarnessEvent.feed ob now :: rest) =
          ((runHarness { h with sim := updateMarket h.sim h.tokenId ob now } rest).1,
            [] ++ (runHarness { h with sim := updateMarket h.sim h.tokenId ob now }
              rest).2) := by
        simp only [runHarness]
        rw [hstep]
      rw [hrun]
      simpa using hI
    | tickEv now =>
      have hstep : harnessStep h (HarnessEvent.tickEv now) = (h, []) := by
        simp [harnessStep, tick, h1]
      have hI := ih h hqrest h1 h2 h3 h4 h5
      have hrun : runHarness h (HarnessEvent.tickEv now :: rest) =
          ((runHarness h rest).1, [] ++ (runHarness h rest).2) := by
        simp only [runHarness]
        rw [hstep]
      rw [hrun]
      simpa using hI

/-- **C8**: while no feed update has carried an order book with both
sides populated, the simulator holds no context, so every evaluation
tick is skipped: no strategy is evaluated (empty evaluation log), no
simulated trade is recorded, no position is opened, and the strategies
are untouched. -/
theorem engine_skips_tick_without_context {σ : Type}
    (strategies : List (Strategy σ)) (tokenId marketName outcome : String)
    (evs : List HarnessEvent) (hq : ∀ e ∈ evs, noTwoSidedBook e) :
    (runHarness (initHarness strategies tokenId marketName outcome) evs).2 = [] ∧
    (runHarness (initHarness strategies tokenId marketName outcome)
        evs).1.sim.simulatedTrades = [] ∧
    (runHarness (initHarness strategies tokenId marketName outcome)
        evs).1.sim.strategies = strategies ∧
    (runHarness (initHarness strategies tokenId marketName outcome)
        evs).1.sim.portfolio.positions = [] ∧
    (runHarness (initHarness strategies tokenId marketName outcome)
        evs).1.sim.currentContext = none := by
  have h := runHarness_quiescent strategies evs
    (initHarness strategies tokenId marketName outcome) hq rfl rfl rfl rfl rfl
  exact ⟨h.1, h.2.2.2.1, h.2.2.2.2.1, h.2.2.2.2.2, h.2.1⟩

/-- A strategy that would trade on every evaluation; used to witness
that it is never evaluated pre-context. -/
def wStrat : Strategy Unit :=
  { name := "PollBuy"
    enabled := true
    state := ()
    initFn := fun _ s => s
    evalFn := fun _ s =>
      ({ shouldExecute := true
         trade := some { side := Side.buy, size := 1, price := none, tokenId := none } },
       s)
    onFillFn := fun _ s => s }

/-- A trace of one-sided feed updates and ticks. -/
def wEvs8 : List HarnessEvent :=
  [HarnessEvent.feed ⟨[], [⟨1/2, 1⟩]⟩ 0,
   HarnessEvent.tickEv 1000,
   HarnessEvent.feed ⟨[⟨2/5, 1⟩], []⟩ 2000,
   HarnessEvent.tickEv 3000]

/-- Witness for C8: an always-trading strategy still never runs on a
trace whose order books are all one-sided. -/
theorem engine_skips_tick_without_context_witness :
    (∀ e ∈ wEvs8, noTwoSidedBook e) ∧
    (runHarness (initHarness [wStrat] "tok" "m" "yes") wEvs8).2 = [] ∧
    (runHarness (initHarness [wStrat] "tok" "m" "yes")
        wEvs8).1.sim.simulatedTrades = [] := by
  have hq : ∀ e ∈ wEvs8, noTwoSidedBook e := by
    intro e he
    simp [wEvs8] at he
    rcases he with rfl | rfl | rfl | rfl <;> simp [noTwoSidedBook]
  have h := engine_skips_tick_without_context [wStrat] "tok" "m" "yes" wEvs8 hq
  exact ⟨hq, h.1, h.2.1⟩

/-! ## Reference semantics of `getSnapshot` (`src/portfolio/portfolio.ts`)

`getSnapshot` returns `Array.from(this.portfolio.positions.values())`:
a fresh array whose elements are the *same* `Position` objects the
ledger mutates in place.  To settle the aliasing claim, the tracker is
re-modelled with an explicit heap: a `Position` object is a heap cell,
a reference is its index, and the `positions` map stores references. -/

/-- The tracker with explicit object identity: `heap` holds the
`Position` objects ever allocated, `posKeys` maps a token id to the
heap reference of its live position. -/
structure RTracker where
  heap : List Position
  posKeys : List (String × ℕ)
  totalCost : ℚ
  currentValue : ℚ
  unrealizedPnL : ℚ
  realizedPnL : ℚ
  currentPrices : List (String × ℚ)
deriving DecidableEq, Repr

/-- The empty reference-semantics tracker. -/
def RTracker.init : RTracker :=
  { heap := [], posKeys := [], totalCost := 0, currentValue := 0
    unrealizedPnL := 0, realizedPnL := 0, currentPrices := [] }

/-- Shares held at a heap reference (0 on a dangling reference, which
no reachable state produces). -/
def refShares (heap : List Position) (r : ℕ) : ℚ :=
  match heap.get? r with
  | some pos => pos.shares
  | none => 0

/-- `recalculateValue` over the reference model. -/
def recalcRef (t : RTracker) : RTracker :=
  let cv := (t.posKeys.map
    (fun kv => priceOf t.currentPrices kv.1 * refShares t.heap kv.2)).sum
  { t with currentValue := cv, unrealizedPnL := cv - t.totalCost }

/-- `addTrade` over the reference model: BUY folds in place through the
reference (or allocates a new object), SELL mutates in place and drops
only the *reference* on full sale (the object itself stays allocated,
as in a garbage-collected heap). -/
def addTradeRef (t : RTracker) (tokenId outcome : String) (side : Side)
    (price size : ℚ) (timestamp : ℤ) : RTracker :=
  let t' :=
    match side with
    | Side.buy =>
      match mapGet t.posKeys tokenId with
      | some r =>
        match t.heap.get? r with
        | some existing =>
          { t with
            heap := t.heap.set r (foldBuy existing price size timestamp)
            totalCost := t.totalCost + price * size }
        | none => t
      | none =>
        let position : Position :=
          { tokenId := tokenId
            outcome := outcome
            posSide := outcome.toUpper
            shares := size
            averagePrice := price
            totalCost := price * size
            firstPurchaseTime := timestamp
            lastPurchaseTime := timestamp }
        { t with
          heap := t.heap ++ [position]
          posKeys := mapSet t.posKeys tokenId t.heap.length
          totalCost := t.totalCost + price * size }
    | Side.sell =>
      match mapGet t.posKeys tokenId with
      | some r =>
        match t.heap.get? r with
        | some existing =>
          if existing.shares ≥ size then
            let updated := foldSell existing size
            { t with
              heap := t.heap.set r updated
              posKeys :=
                if updated.shares = 0 then mapDelete t.posKeys tokenId
                else t.posKeys
              totalCost := t.totalCost - existing.averagePrice * size
              realizedPnL :=
                t.realizedPnL + (price * size - existing.averagePrice * size) }
          else t
        | none => t
      | none => t
  recalcRef t'

/-- The value returned by `getSnapshot`: scalar aggregates copied by
value, and a fresh array of the live positions — as references. -/
structure RSnapshot where
  posRefs : List ℕ
  totalCost : ℚ
  currentValue : ℚ
  unrealizedPnL : ℚ
  realizedPnL : ℚ
  timestamp : ℤ
deriving DecidableEq, Repr

/-- `PortfolioTracker.getSnapshot` over the reference model. -/
def getSnapshotRef (t : RTracker) (now : ℤ) : RSnapshot :=
  { posRefs := t.posKeys.map Prod.snd
    totalCost := t.totalCost
    currentValue := t.currentValue
    unrealizedPnL := t.unrealizedPnL
    realizedPnL := t.realizedPnL
    timestamp := now }

/-- What a consumer reads through a snapshot's position array: the
dereferenced objects in the current heap. -/
def snapContents (heap : List Position) (s : RSnapshot) : List (Option Position) :=
  s.posRefs.map (fun r => heap.get? r)

lemma get?_set_of_get? {α : Type} {l : List α} {r : ℕ} {x : α} (v : α)
    (h : l.get? r = some x) : (l.set r v).get? r = some v := by
  induction l generalizing r with
  | nil => simp at h
  | cons a rest ih =>
    cases r with
    | zero => simp
    | succ n =>
      simp only [List.get?_cons_succ] at h
      simpa using ih h

lemma addTradeRef_buy_some {t : RTracker} {tokenId : String} {r : ℕ}
    {existing : Position} (outcome : String) (price size : ℚ) (ts : ℤ)
    (hget : mapGet t.posKeys tokenId = some r)
    (hheap : t.heap.get? r = some existing) :
    addTradeRef t tokenId outcome Side.buy price size ts =
      recalcRef
        { t with
          heap := t.heap.set r (foldBuy existing price size ts)
          totalCost := t.totalCost + price * size } := by
  unfold addTradeRef
  simp only [hget, hheap]

/-- **C9 counterexample**: a snapshot taken after one BUY, followed by
a second BUY folding into the same position, shows different contents
through the *same* snapshot: the snapshot's position array holds a live
reference to the mutated object, so a prior snapshot's contents change
with subsequent ledger mutations. -/
theorem snapshot_aliasing_cex :
    snapContents
        (addTradeRef (addTradeRef RTracker.init "tok" "yes" Side.buy (1/2) 1 0)
          "tok" "yes" Side.buy (7/10) 1 1).heap
        (getSnapshotRef (addTradeRef RTracker.init "tok" "yes" Side.buy (1/2) 1 0) 0) ≠
      snapContents
        (addTradeRef RTracker.init "tok" "yes" Side.buy (1/2) 1 0).heap
        (getSnapshotRef (addTradeRef RTracker.init "tok" "yes" Side.buy (1/2) 1 0) 0) := by
  intro hcontra
  have h2 := congrArg (fun l => l.map (fun o => (Option.map Position.shares o).getD 0))
    hcontra
  norm_num [snapContents, getSnapshotRef, addTradeRef, RTracker.init, recalcRef,
    mapGet, mapSet, List.find?, foldBuy, refShares, priceOf] at h2

/-- **C9 (amended)**: `getSnapshot` copies the scalar aggregates by
value and builds a fresh top-level array, but that array's entries are
the ledger's live `Position` references: a subsequent BUY folding into
a held position rewrites the heap cell that a previously returned
snapshot still points at. -/
theorem snapshot_shares_position_references (t : RTracker) (now ts : ℤ)
    (tokenId outcome : String) (price size : ℚ) :
    ((getSnapshotRef t now).totalCost = t.totalCost ∧
     (getSnapshotRef t now).currentValue = t.currentValue ∧
     (getSnapshotRef t now).unrealizedPnL = t.unrealizedPnL ∧
     (getSnapshotRef t now).realizedPnL = t.realizedPnL ∧
     (getSnapshotRef t now).posRefs = t.posKeys.map Prod.snd) ∧
    (∀ (r : ℕ) (existing : Position),
      mapGet t.posKeys tokenId = some r → t.heap.get? r = some existing →
      r ∈ (getSnapshotRef t now).posRefs ∧
      (addTradeRef t tokenId outcome Side.buy price size ts).heap.get? r =
        some (foldBuy existing price size ts)) := by
  refine ⟨⟨rfl, rfl, rfl, rfl, rfl⟩, ?_⟩
  intro r existing hget hheap
  constructor
  · have hmem := mapGet_mem hget
    exact List.mem_map.mpr ⟨(tokenId, r), hmem, rfl⟩
  · rw [addTradeRef_buy_some outcome price size ts hget hheap]
    exact get?_set_of_get? _ hheap

/-- Witness for C9 at a concrete one-position tracker. -/
theorem snapshot_shares_position_references_witness :
    mapGet (addTradeRef RTracker.init "tok" "yes" Side.buy (1/2) 1 0).posKeys "tok" =
      some 0 ∧
    (addTradeRef RTracker.init "tok" "yes" Side.buy (1/2) 1 0).heap.get? 0 =
      some { tokenId := "tok", outcome := "yes", posSide := ("yes").toUpper, shares := 1,
             averagePrice := 1/2, totalCost := 1/2 * 1,
             firstPurchaseTime := 0, lastPurchaseTime := 0 } ∧
    (0 : ℕ) ∈ (getSnapshotRef (addTradeRef RTracker.init "tok" "yes" Side.buy
        (1/2) 1 0) 0).posRefs := by
  have hget : mapGet (addTradeRef RTracker.init "tok" "yes" Side.buy (1/2) 1 0).posKeys
      "tok" = some 0 := by
    norm_num [addTradeRef, RTracker.init, recalcRef, mapGet, mapSet, List.find?]
  have hheap : (addTradeRef RTracker.init "tok" "yes" Side.buy (1/2) 1 0).heap.get? 0 =
      some { tokenId := "tok", outcome := "yes", posSide := ("yes").toUpper, shares := 1,
             averagePrice := 1/2, totalCost := 1/2 * 1,
             firstPurchaseTime := 0, lastPurchaseTime := (0:ℤ) } := by
    norm_num [addTradeRef, RTracker.init, recalcRef, mapGet, mapSet, List.find?]
  refine ⟨hget, hheap, ?_⟩
  exact ((snapshot_shares_position_references
    (addTradeRef RTracker.init "tok" "yes" Side.buy (1/2) 1 0) 0 1 "tok" "yes"
    (7/10) 1).2 0 _ hget hheap).1

/-- Concrete position used to witness C3. -/
def wPos : Position :=
  { tokenId := "tok"
    outcome := "yes"
    posSide := "YES"
    shares := 2
    averagePrice := 1/2
    totalCost := 1
    firstPurchaseTime := 0
    lastPurchaseTime := 0 }

/-- Concrete tracker holding `wPos`, used to witness C3. -/
def wTracker : Tracker :=
  { positions := [("tok", wPos)]
    totalCost := 1
    currentValue := 0
    unrealizedPnL := -1
    realizedPnL := 0
    currentPrices := [] }

/-- Witness for C3: a BUY on the concrete tracker folds into the held
position, and a full SELL books the realized P&L. -/
theorem addTrade_fill_semantics_witness :
    mapGet wTracker.positions "tok" = some wPos ∧
    mapGet (addTrade wTracker "tok" "yes" Side.buy (2/5) 3 7).positions "tok" =
      some (foldBuy wPos (2/5) 3 7) ∧
    (2 : ℚ) ≤ wPos.shares ∧
    (addTrade wTracker "tok" "yes" Side.sell (4/5) 2 9).realizedPnL =
      wTracker.realizedPnL + (4/5 - wPos.averagePrice) * 2 := by
  have hget : mapGet wTracker.positions "tok" = some wPos := by
    simp [wTracker, mapGet_cons]
  have hle : (2 : ℚ) ≤ wPos.shares := by norm_num [wPos]
  refine ⟨hget, ?_, hle, ?_⟩
  · exact ((addTrade_fill_semantics wTracker "tok" "yes" (2/5) 3 7).1 wPos hget).1
  · exact (((addTrade_fill_semantics wTracker "tok" "yes" (4/5) 2 9).2.2.2.2)
      wPos hget hle).1

end Dashboard
